import Mathlib

/-!
Verification of the OAuth 1.0a signing layer and API client of the
zaim-api-mcp repository (src/utils/oauth-signature.ts and
src/core/zaim-api-client.ts), shallowly embedded in Lean 4.

JavaScript strings are modelled as Lean `String` (lists of Unicode scalar
values); host primitives used by the source (`encodeURIComponent`,
`String.prototype.localeCompare`, `URLSearchParams`, `fetch` responses,
`crypto.createHmac`) are modelled explicitly below, each with a doc comment
stating which host behaviour it embeds.  The HMAC-SHA1 digest itself is an
external primitive of the `crypto` module; it is threaded through as an
abstract function parameter, so every theorem about the client holds for
any digest function.
-/

namespace ZaimSpec

/-! ## UTF-8 byte model

Both `encodeURIComponent` (ECMA-262) and the WHATWG
`application/x-www-form-urlencoded` serializer used by `URLSearchParams`
escape a character as the percent-encoding of its UTF-8 bytes. -/

/-- UTF-8 encoding of a single Unicode scalar value (RFC 3629), as a list of
bytes written as natural numbers below 256. -/
def utf8Bytes (c : Char) : List Nat :=
  if c.toNat < 0x80 then [c.toNat]
  else if c.toNat < 0x800 then [0xC0 + c.toNat / 64, 0x80 + c.toNat % 64]
  else if c.toNat < 0x10000 then
    [0xE0 + c.toNat / 4096, 0x80 + c.toNat / 64 % 64, 0x80 + c.toNat % 64]
  else
    [0xF0 + c.toNat / 262144, 0x80 + c.toNat / 4096 % 64,
     0x80 + c.toNat / 64 % 64, 0x80 + c.toNat % 64]

/-- UTF-8 encoding of a sequence of characters. -/
def utf8EncodeBytes : List Char → List Nat
  | [] => []
  | c :: cs => utf8Bytes c ++ utf8EncodeBytes cs

/-- Replacement character U+FFFD, emitted by WHATWG text decoders when a byte
sequence is not valid UTF-8.  Only well-formed sequences are exercised by the
theorems below. -/
def replacementChar : Char := Char.ofNat 0xFFFD

/-- Whether a byte is a UTF-8 continuation byte (10xxxxxx). -/
def isCont (b : Nat) : Bool := decide (0x80 ≤ b ∧ b < 0xC0)

/-- One UTF-8 decoding step: given a leading byte and the remaining bytes,
produce the decoded character (U+FFFD on ill-formed input, following the
WHATWG decoder's error mode) and the bytes left over. -/
def utf8Step (b : Nat) (rest : List Nat) : Char × List Nat :=
  if b < 0x80 then (Char.ofNat b, rest)
  else if b < 0xC0 then (replacementChar, rest)
  else if b < 0xE0 then
    match rest with
    | b2 :: rest2 =>
      (if isCont b2 then Char.ofNat ((b - 0xC0) * 64 + (b2 - 0x80))
       else replacementChar, rest2)
    | [] => (replacementChar, [])
  else if b < 0xF0 then
    match rest with
    | b2 :: b3 :: rest3 =>
      (if isCont b2 && isCont b3 then
        Char.ofNat ((b - 0xE0) * 4096 + (b2 - 0x80) * 64 + (b3 - 0x80))
       else replacementChar, rest3)
    | _ => (replacementChar, [])
  else
    match rest with
    | b2 :: b3 :: b4 :: rest4 =>
      (if isCont b2 && isCont b3 && isCont b4 then
        Char.ofNat ((b - 0xF0) * 262144 + (b2 - 0x80) * 4096 +
          (b3 - 0x80) * 64 + (b4 - 0x80))
       else replacementChar, rest4)
    | _ => (replacementChar, [])

/-- Fuel-indexed driver for the UTF-8 decoder; the fuel only serves to make
the recursion structural, and is irrelevant as soon as it bounds the length
of the byte list (`utf8DecodeAux_fuel`). -/
def utf8DecodeAux : Nat → List Nat → List Char
  | _, [] => []
  | 0, _ :: _ => []
  | fuel + 1, b :: rest =>
    (utf8Step b rest).1 :: utf8DecodeAux fuel (utf8Step b rest).2

/-- Total UTF-8 decoder over a byte list; only well-formed output of
`utf8EncodeBytes` is exercised by the theorems below. -/
def utf8DecodeBytes (l : List Nat) : List Char := utf8DecodeAux l.length l

/-! ## Percent-encoding and -decoding -/

/-- Uppercase hexadecimal digit for a value below 16, as emitted by both
`encodeURIComponent` and the WHATWG urlencoded serializer. -/
def hexDigitChar (n : Nat) : Char :=
  if n < 10 then Char.ofNat (48 + n) else Char.ofNat (55 + n)

/-- Percent-escape of one byte: `%` followed by two uppercase hex digits. -/
def percentByte (b : Nat) : List Char :=
  ['%', hexDigitChar (b / 16), hexDigitChar (b % 16)]

/-- Percent-escapes for a whole byte sequence. -/
def percentEncodeAll : List Nat → List Char
  | [] => []
  | b :: bs => percentByte b ++ percentEncodeAll bs

/-- Value of a hexadecimal digit character; parsers accept both cases. -/
def hexVal (c : Char) : Option Nat :=
  if 48 ≤ c.toNat ∧ c.toNat ≤ 57 then some (c.toNat - 48)
  else if 65 ≤ c.toNat ∧ c.toNat ≤ 70 then some (c.toNat - 55)
  else if 97 ≤ c.toNat ∧ c.toNat ≤ 102 then some (c.toNat - 87)
  else none

/-- One step of percent-decoding with optional `+`-to-space handling: given a
leading character and the remaining ones, produce the bytes to emit and the
characters left over.  This models the byte-level phase of the WHATWG
urlencoded parser; a `%` not followed by two hex digits is taken literally
together with the following characters, a clause that is never exercised by
the well-formed serializer output fed to it below. -/
def pctStep (plus : Bool) (c : Char) (rest : List Char) : List Nat × List Char :=
  if c = '%' then
    match rest with
    | h :: l :: rest2 =>
      match hexVal h, hexVal l with
      | some a, some b => ([16 * a + b], rest2)
      | _, _ => (utf8Bytes '%' ++ utf8Bytes h ++ utf8Bytes l, rest2)
    | [h] => (utf8Bytes '%' ++ utf8Bytes h, [])
    | [] => (utf8Bytes '%', [])
  else if plus = true ∧ c = '+' then ([32], rest)
  else (utf8Bytes c, rest)

/-- Fuel-indexed driver for percent-decoding; the fuel is irrelevant once it
bounds the length of the input. -/
def pctDecodeAux (plus : Bool) : Nat → List Char → List Nat
  | _, [] => []
  | 0, _ :: _ => []
  | fuel + 1, c :: rest =>
    (pctStep plus c rest).1 ++ pctDecodeAux plus fuel (pctStep plus c rest).2

/-- Percent-decoding of a character sequence to bytes, with optional
`+`-to-space handling (the byte-level phase of the WHATWG urlencoded
parser). -/
def percentDecodeBytes (plus : Bool) (l : List Char) : List Nat :=
  pctDecodeAux plus l.length l

/-! ## encodeURIComponent -/

/-- Characters the ECMAScript `encodeURIComponent` host function leaves
unescaped (ECMA-262 "unescapedSet"): ASCII letters, digits, and
`- _ . ! ~ * ' ( )`.  Note this set is strictly larger than the RFC 3986
unreserved set, which has only `- . _ ~`. -/
def jsUnreserved (c : Char) : Bool :=
  decide ((65 ≤ c.toNat ∧ c.toNat ≤ 90) ∨ (97 ≤ c.toNat ∧ c.toNat ≤ 122) ∨
    (48 ≤ c.toNat ∧ c.toNat ≤ 57) ∨ c.toNat = 45 ∨ c.toNat = 95 ∨
    c.toNat = 46 ∨ c.toNat = 33 ∨ c.toNat = 126 ∨ c.toNat = 42 ∨
    c.toNat = 39 ∨ c.toNat = 40 ∨ c.toNat = 41)

/-- Character-level body of `encodeURIComponent`: each code point is kept if
unescaped, otherwise replaced by the percent-escapes of its UTF-8 bytes. -/
def encodeURIChars : List Char → List Char
  | [] => []
  | c :: cs =>
    (if jsUnreserved c then [c] else percentEncodeAll (utf8Bytes c))
      ++ encodeURIChars cs

/-- Model of the ECMAScript `encodeURIComponent` host function used
throughout src/utils/oauth-signature.ts and in the Authorization-header
assembly of src/core/zaim-api-client.ts. -/
def encodeURIComponent (s : String) : String := String.mk (encodeURIChars s.data)

/-! ## Collation model for String.prototype.localeCompare

The source sorts percent-encoded parameter keys with
`.sort(([a], [b]) => a.localeCompare(b))`, i.e. the host's default-locale
ICU collation (UCA/CLDR root order), not code-point order.  The model below
is calibrated on the alphabet that percent-encoded keys can actually
contain (ASCII letters, digits, and `- _ . ! ~ * ' ( ) %`): following the
root collation, punctuation sorts before digits, digits before letters,
letters case-insensitively at the primary level with lowercase before
uppercase at the tertiary level.  All other characters are placed above
this alphabet in an arbitrary injective way, which keeps the comparison a
total order without affecting any string the program can produce. -/

/-- Primary collation weight of a code point (root-collation order on the
reachable alphabet). -/
def primWeightN (n : Nat) : Nat :=
  if n = 95 then 0
  else if n = 45 then 1
  else if n = 33 then 2
  else if n = 46 then 3
  else if n = 39 then 4
  else if n = 40 then 5
  else if n = 41 then 6
  else if n = 42 then 7
  else if n = 37 then 8
  else if n = 126 then 9
  else if 48 ≤ n ∧ n ≤ 57 then 10 + (n - 48)
  else if 97 ≤ n ∧ n ≤ 122 then 20 + (n - 97)
  else if 65 ≤ n ∧ n ≤ 90 then 20 + (n - 65)
  else 100 + n

/-- Tertiary (case) collation weight: uppercase letters sort after their
lowercase counterparts when the primary weights tie. -/
def tertWeightN (n : Nat) : Nat :=
  if 65 ≤ n ∧ n ≤ 90 then 1 else 0

/-- Primary collation weight of a character. -/
def primWeight (c : Char) : Nat := primWeightN c.toNat

/-- Tertiary collation weight of a character. -/
def tertWeight (c : Char) : Nat := tertWeightN c.toNat

/-- Three-way comparison on naturals. -/
def cmpNat (a b : Nat) : Ordering :=
  if a < b then .lt else if b < a then .gt else .eq

/-- Lexicographic three-way comparison on lists of naturals. -/
def cmpList : List Nat → List Nat → Ordering
  | [], [] => .eq
  | [], _ :: _ => .lt
  | _ :: _, [] => .gt
  | a :: as, b :: bs => (cmpNat a b).then (cmpList as bs)

/-- Character-list core of the `localeCompare` model: compare the whole
primary weight sequences first, then the tertiary (case) sequences, then as
a final tiebreak the raw code points (the UCA's identical level).  On the
alphabet reachable from percent-encoded keys the primary and tertiary
sequences already determine the string, so the final level never changes
the outcome of a comparison; it is included so that equality of the
comparison is literally equality of the strings. -/
def localeCompareChars (a b : List Char) : Ordering :=
  (cmpList (a.map primWeight) (b.map primWeight)).then
    ((cmpList (a.map tertWeight) (b.map tertWeight)).then
      (cmpList (a.map Char.toNat) (b.map Char.toNat)))

/-- Model of `String.prototype.localeCompare` under the host's default
locale, as an `Ordering` standing for the sign of the returned number. -/
def localeCompare (a b : String) : Ordering := localeCompareChars a.data b.data

/-! ## normalizeParameters (src/utils/oauth-signature.ts, lines 10 to 21) -/

/-- Join of a list of character lists with a separator, modelling
`Array.prototype.join`. -/
def joinSep (sep : List Char) : List (List Char) → List Char
  | [] => []
  | [x] => x
  | x :: xs => x ++ sep ++ joinSep sep xs

/-- Encoded key-value pair of one parameter entry, modelling
`[encodeURIComponent(key), encodeURIComponent(value)]`. -/
def encodePair (p : String × String) : String × String :=
  (encodeURIComponent p.1, encodeURIComponent p.2)

/-- Comparator of the sort in `normalizeParameters`, modelling
`.sort(([a], [b]) => a.localeCompare(b))`: ascending in the localeCompare
order of the encoded keys. -/
def paramLe (p q : String × String) : Prop := localeCompare p.1 q.1 ≠ .gt

instance : DecidableRel paramLe := fun p q =>
  inferInstanceAs (Decidable (localeCompare p.1 q.1 ≠ .gt))

/-- A JavaScript `Record<string, string>` is modelled as its `Object.entries`
association list: keys in insertion order, no duplicate keys.  This is the
parameter type of `normalizeParameters`. -/
def normalizeParameters (params : List (String × String)) : String :=
  String.mk (joinSep ['&']
    ((List.insertionSort paramLe (params.map encodePair)).map
      (fun p => p.1.data ++ '=' :: p.2.data)))

/-- Same comparator on bare strings, for reasoning about key sequences. -/
def keyLe (a b : String) : Prop := localeCompare a b ≠ .gt

/-! ## Signer: base string, signing key, signature
(src/utils/oauth-signature.ts) -/

/-- ASCII uppercasing, modelling `String.prototype.toUpperCase` on the
ASCII strings used as HTTP methods (the only inputs it receives here). -/
def toUpperChars : List Char → List Char
  | [] => []
  | c :: cs =>
    (if 97 ≤ c.toNat ∧ c.toNat ≤ 122 then Char.ofNat (c.toNat - 32) else c)
      :: toUpperChars cs

/-- String-level wrapper of `toUpperChars`. -/
def toUpperString (s : String) : String := String.mk (toUpperChars s.data)

/-- Model of `constructBaseString` (src/utils/oauth-signature.ts, lines 32
to 44): `[method.toUpperCase(), encodeURIComponent(url),
encodeURIComponent(normalizedParams)].join('&')`. -/
def constructBaseString (method url normalizedParams : String) : String :=
  String.mk (joinSep ['&']
    [(toUpperString method).data, (encodeURIComponent url).data,
     (encodeURIComponent normalizedParams).data])

/-- Model of `constructSigningKey` (src/utils/oauth-signature.ts, lines 54
to 62).  The source tests `tokenSecret ?`, i.e. JavaScript truthiness, so an
absent and an empty token secret both yield the empty encoded part. -/
def constructSigningKey (consumerSecret : String)
    (tokenSecret : Option String) : String :=
  encodeURIComponent consumerSecret ++ "&" ++
    (match tokenSecret with
     | some t => if t = "" then "" else encodeURIComponent t
     | none => "")

/-- Model of `generateOAuthSignature` (src/utils/oauth-signature.ts, lines
74 to 93).  `hmacSha1 key msg` stands for
`crypto.createHmac('sha1', key).update(msg).digest('base64')`, an external
primitive of the `crypto` module threaded through as a parameter. -/
def generateOAuthSignature (hmacSha1 : String → String → String)
    (method url : String) (parameters : List (String × String))
    (consumerSecret : String) (tokenSecret : Option String) : String :=
  hmacSha1 (constructSigningKey consumerSecret tokenSecret)
    (constructBaseString method url (normalizeParameters parameters))

/-! ## Spec-side comparison definitions for C2 and C3 -/

/-- Modelled from the spec: membership in the strict RFC 3986 unreserved
set ("letters, digits, `-`, `.`, `_`, `~` unescaped"), stated for comparison
against the code's `encodeURIComponent` unescaped set. -/
def specRfc3986Unreserved (c : Char) : Bool :=
  decide ((65 ≤ c.toNat ∧ c.toNat ≤ 90) ∨ (97 ≤ c.toNat ∧ c.toNat ≤ 122) ∨
    (48 ≤ c.toNat ∧ c.toNat ≤ 57) ∨ c.toNat = 45 ∨ c.toNat = 46 ∨
    c.toNat = 95 ∨ c.toNat = 126)

/-- Modelled from the spec: percent-encoding under the strict RFC 3986
unreserved rule, everything outside the unreserved set escaped as UTF-8
percent triplets. -/
def specRfc3986Chars : List Char → List Char
  | [] => []
  | c :: cs =>
    (if specRfc3986Unreserved c then [c] else percentEncodeAll (utf8Bytes c))
      ++ specRfc3986Chars cs

/-- String-level wrapper of `specRfc3986Chars`. -/
def specRfc3986Encode (s : String) : String := String.mk (specRfc3986Chars s.data)

/-- Modelled from the spec: the comparator "byte/codepoint ordering" on
encoded keys, for comparison against the code's localeCompare comparator. -/
def specCodepointLe (p q : String × String) : Prop :=
  cmpList (p.1.data.map Char.toNat) (q.1.data.map Char.toNat) ≠ .gt

instance : DecidableRel specCodepointLe := fun p q =>
  inferInstanceAs
    (Decidable (cmpList (p.1.data.map Char.toNat) (q.1.data.map Char.toNat) ≠ .gt))

/-- Modelled from the spec: the normalizer as the spec describes it, with
pairs sorted by the code-point order of the encoded key; identical to
`normalizeParameters` in every other respect. -/
def specNormalizeByCodepoint (params : List (String × String)) : String :=
  String.mk (joinSep ['&']
    ((List.insertionSort specCodepointLe (params.map encodePair)).map
      (fun p => p.1.data ++ '=' :: p.2.data)))

/-! ## Claims C1 to C5 -/

/-! ## URLSearchParams: the urlencoded serializer and parser
(WHATWG application/x-www-form-urlencoded, as used by `buildUrl` and by the
query-extraction step of `generateAuthHeader`) -/

/-- Splitting a character list at every occurrence of a separator,
modelling `String.prototype.split` with a single-character separator. -/
def splitOnChar (sep : Char) : List Char → List (List Char)
  | [] => [[]]
  | c :: rest =>
    if c = sep then [] :: splitOnChar sep rest
    else
      match splitOnChar sep rest with
      | [] => [[c]]
      | h :: t => (c :: h) :: t

/-- Splitting at the first `=`, modelling the WHATWG urlencoded parser's
name/value split (the whole segment is the name when no `=` occurs). -/
def splitFirstEq : List Char → List Char × List Char
  | [] => ([], [])
  | c :: rest =>
    if c = '=' then ([], rest)
    else ((c :: (splitFirstEq rest).1), (splitFirstEq rest).2)

/-- Bytes the WHATWG urlencoded serializer emits literally:
`*`, `-`, `.`, `_`, digits, letters. -/
def formSafeByte (b : Nat) : Bool :=
  decide (b = 0x2A ∨ b = 0x2D ∨ b = 0x2E ∨ b = 0x5F ∨
    (0x30 ≤ b ∧ b ≤ 0x39) ∨ (0x41 ≤ b ∧ b ≤ 0x5A) ∨ (0x61 ≤ b ∧ b ≤ 0x7A))

/-- Byte-level body of the WHATWG urlencoded serializer: space becomes `+`,
safe bytes stay literal, everything else is percent-escaped. -/
def formEncodeBytes : List Nat → List Char
  | [] => []
  | b :: bs =>
    (if b = 32 then ['+'] else if formSafeByte b then [Char.ofNat b]
     else percentByte b) ++ formEncodeBytes bs

/-- Model of the WHATWG urlencoded serialization of one string, as used for
each name and value by `URLSearchParams.toString`. -/
def formEncode (s : String) : String :=
  String.mk (formEncodeBytes (utf8EncodeBytes s.data))

/-- Model of the WHATWG urlencoded decoding of one segment: `+` and percent
escapes to bytes, then UTF-8. -/
def formDecode (l : List Char) : String :=
  String.mk (utf8DecodeBytes (percentDecodeBytes true l))

/-- Model of `URLSearchParams.toString` over the appended pair list. -/
def serializeQuery (pairs : List (String × String)) : String :=
  String.mk (joinSep ['&']
    (pairs.map fun p => (formEncode p.1).data ++ '=' :: (formEncode p.2).data))

/-- Model of the WHATWG urlencoded parser (`new URLSearchParams(s)`, in
order): split on `&`, skip empty segments, split each segment at the first
`=`, decode name and value. -/
def parseQueryPairs (l : List Char) : List (String × String) :=
  ((splitOnChar '&' l).filter (fun part => !part.isEmpty)).map
    (fun part => (formDecode (splitFirstEq part).1, formDecode (splitFirstEq part).2))

/-! ## JavaScript object model

A JavaScript plain object with string values is modelled as its
`Object.entries` association list: keys in insertion order, no duplicate
keys.  `objSet` models property assignment `o[k] = v` (an existing key
keeps its position and receives the new value, a new key is appended) and
`objExtend` folds assignments, which is also the meaning of an object
spread `{...a, ...b}`: later spreads win, the first-insertion position is
kept. -/

/-- Property assignment on a JavaScript object. -/
def objSet (o : List (String × String)) (k v : String) : List (String × String) :=
  if o.any (fun p => p.1 == k) then
    o.map (fun p => if p.1 = k then (k, v) else p)
  else o ++ [(k, v)]

/-- Assignment of every entry in order, i.e. object spread. -/
def objExtend (o : List (String × String))
    (entries : List (String × String)) : List (String × String) :=
  entries.foldl (fun acc p => objSet acc p.1 p.2) o

/-- Property read `o[k]`: the value at the first occurrence of the key. -/
def objLookup : List (String × String) → String → Option String
  | [], _ => none
  | p :: rest, k => if p.1 = k then some p.2 else objLookup rest k

/-! ## ZaimApiClient (src/core/zaim-api-client.ts) -/

/-- OAuth credential set (src/types/oauth.ts, `OAuthConfig`): four string
fields. -/
structure OAuthConfig where
  consumerKey : String
  consumerSecret : String
  accessToken : String
  accessTokenSecret : String

/-- Model of `ZaimApiClient.validateConfig` (src/core/zaim-api-client.ts,
lines 22 to 44), called by the constructor before anything else.
`!config.consumerKey` is JavaScript falsiness, which for the string-typed
fields means exactly the empty string; a thrown `Error` is modelled as
`Except.error` carrying its message. -/
def validateConfig (config : OAuthConfig) : Except String Unit :=
  if config.consumerKey = "" then .error "consumerKey is required"
  else if config.consumerSecret = "" then .error "consumerSecret is required"
  else if config.accessToken = "" then .error "accessToken is required"
  else if config.accessTokenSecret = "" then .error "accessTokenSecret is required"
  else .ok ()

/-- The client's fixed base URL. -/
def zaimBaseUrl : String := "https://api.zaim.net"

/-- Model of `buildUrl` (lines 152 to 165): base URL plus endpoint, plus a
`?`-prefixed `URLSearchParams` query string when query parameters are
present.  The absent and the empty parameter object behave identically, so
both are modelled by the empty list. -/
def buildUrl (endpoint : String) (queryParams : List (String × String)) : String :=
  if queryParams.isEmpty then zaimBaseUrl ++ endpoint
  else zaimBaseUrl ++ endpoint ++ "?" ++ serializeQuery queryParams

/-- Model of `buildRequestParameters` (lines 171 to 181): each body entry is
assigned into a fresh object.  Values arrive already stringified here; the
`String(value)` coercion of numbers and booleans is outside the model. -/
def buildRequestParameters (data : List (String × String)) : List (String × String) :=
  objExtend [] data

/-- The six fixed oauth_* parameters (excluding the signature), in the order
the source's object literal writes them (lines 194 to 201). -/
def oauthBaseParams (config : OAuthConfig) (nonce timestamp : String) :
    List (String × String) :=
  [("oauth_consumer_key", config.consumerKey),
   ("oauth_nonce", nonce),
   ("oauth_signature_method", "HMAC-SHA1"),
   ("oauth_timestamp", timestamp),
   ("oauth_token", config.accessToken),
   ("oauth_version", "1.0")]

/-- Model of `const [baseUrl, queryString] = url.split('?')`: the part
before the first `?`, and the part between the first and second `?` when a
`?` occurs (destructuring discards any later parts). -/
def splitAtQMark (url : String) : String × Option String :=
  match splitOnChar '?' url.data with
  | [] => (url, none)
  | base :: rest => (String.mk base, rest.head?.map String.mk)

/-- Model of `buildAuthorizationHeader` (lines 244 to 250):
`OAuth k1="enc v1", k2="enc v2", ...` over the given oauth parameter
object. -/
def buildAuthorizationHeader (oauthParams : List (String × String)) : String :=
  "OAuth " ++ String.intercalate ", "
    (oauthParams.map fun p => p.1 ++ "=\"" ++ encodeURIComponent p.2 ++ "\"")

/-- Everything `generateAuthHeader` computes: the URL and the parameter set
handed to the signer, and the Authorization header value. -/
structure AuthHeaderResult where
  signerUrl : String
  signerParams : List (String × String)
  header : String

/-- Model of `ZaimApiClient.generateAuthHeader` (lines 189 to 237), with the
nonce and timestamp supplied as arguments (the source draws them from
`Math.random` and `Date.now` per call). -/
def generateAuthHeader (hmacSha1 : String → String → String)
    (method url : String) (requestParams : List (String × String))
    (config : OAuthConfig) (nonce timestamp : String) : AuthHeaderResult :=
  let oauthParams := oauthBaseParams config nonce timestamp
  let split := splitAtQMark url
  let queryParams : List (String × String) :=
    match split.2 with
    | some qs => if qs = "" then [] else objExtend [] (parseQueryPairs qs.data)
    | none => []
  let allParams :=
    objExtend (objExtend (objExtend [] oauthParams) requestParams) queryParams
  let signature := generateOAuthSignature hmacSha1 method split.1 allParams
    config.consumerSecret (some config.accessTokenSecret)
  { signerUrl := split.1
    signerParams := allParams
    header := buildAuthorizationHeader
      (objExtend oauthParams [("oauth_signature", signature)]) }

/-- The signing-relevant part of one `request` execution (lines 104 to 144):
URL construction, body-parameter construction, then header generation,
composed exactly as `request` does. -/
def requestSignerView (hmacSha1 : String → String → String)
    (method endpoint : String) (data queryParams : List (String × String))
    (config : OAuthConfig) (nonce timestamp : String) : AuthHeaderResult :=
  generateAuthHeader hmacSha1 method (buildUrl endpoint queryParams)
    (buildRequestParameters data) config nonce timestamp

/-! ## Response handling (handleResponse / request error flow) -/

/-- JSON-like values for response bodies.  The client inspects only string
fields named `message` and `error` — its cast is
`{ message?: string; error?: string }` — so other shapes are inert and
collapsed into `other`. -/
inductive JsVal where
  | str (s : String)
  | obj (fields : List (String × JsVal))
  | other

/-- Association-list lookup inside a JSON object. -/
def jsLookup : List (String × JsVal) → String → Option JsVal
  | [], _ => none
  | p :: rest, k => if p.1 = k then some p.2 else jsLookup rest k

/-- Field access `body.k` under the source's string-field cast: the value
when the body is an object carrying a string at that key. -/
def jsField (v : JsVal) (k : String) : Option String :=
  match v with
  | .obj fields =>
    match jsLookup fields k with
    | some (.str s) => some s
    | _ => none
  | _ => none

/-- JavaScript `x || dflt` for an optional string: an absent or empty
(falsy) value falls through to the default. -/
def truthyOr (x : Option String) (dflt : String) : String :=
  match x with
  | some s => if s = "" then dflt else s
  | none => dflt

/-- The message selection `errorData.message || errorData.error ||
'Unknown error'` of `handleResponse`. -/
def errorMessageOf (v : JsVal) : String :=
  truthyOr (jsField v "message") (truthyOr (jsField v "error") "Unknown error")

/-- Model of `ZaimApiClient.handleResponse` (lines 285 to 301).  `parsed` is
the result of `await response.json()`, `none` when parsing threw, in which
case `{}` is used; `response.ok` is the fetch contract `200 ≤ status ≤ 299`;
a non-ok response raises the API error, an ok response returns the parsed
body as-is. -/
def handleResponse (status : Nat) (parsed : Option JsVal) : Except String JsVal :=
  let responseData := parsed.getD (.obj [])
  if ¬(200 ≤ status ∧ status ≤ 299) then
    .error ("Zaim API Error: " ++ toString status ++ " - "
      ++ errorMessageOf responseData)
  else .ok responseData

/-- Whether the pattern is an initial segment of the list. -/
def listStartsWith : List Char → List Char → Bool
  | [], _ => true
  | _ :: _, [] => false
  | p :: ps, c :: cs => p == c && listStartsWith ps cs

/-- Substring test, modelling `String.prototype.includes`. -/
def listHasSub (pat : List Char) : List Char → Bool
  | [] => listStartsWith pat []
  | c :: cs => listStartsWith pat (c :: cs) || listHasSub pat cs

/-- Model of `error.message.includes('Zaim API Error')`, the test the
`request` catch block uses to classify a caught error. -/
def containsMarker (m : String) : Bool :=
  listHasSub ("Zaim API Error" : String).data m.data

/-- Model of the try/catch flow of `ZaimApiClient.request` (lines 104 to
144) around transport and response handling.  `transport` is the outcome of
`fetch`: `.error msg` models the promise rejecting with an `Error` carrying
`msg` (non-`Error` throwables, which yield 'Unknown network error occurred',
are outside the model), `.ok (status, parsed)` a received response.  A
caught error whose message contains 'Zaim API Error' is re-thrown
unchanged; anything else is wrapped as a network error. -/
def requestOutcome (transport : Except String (Nat × Option JsVal)) :
    Except String JsVal :=
  let attempt : Except String JsVal :=
    match transport with
    | .error m => .error m
    | .ok sp => handleResponse sp.1 sp.2
  match attempt with
  | .ok v => .ok v
  | .error m =>
    if containsMarker m then .error m
    else .error ("Network error occurred: " ++ m)

/-! ## Claims C7, C8, C9 -/

/-- Modelled from the spec (amended): the fallback chain for the API error
message — a non-empty `message` field, else a non-empty `error` field, else
`"Unknown error"`; `"Unknown error"` also when the body failed to parse. -/
def specErrFallback (e : Option String) : String :=
  match e with
  | some s => if s ≠ "" then s else "Unknown error"
  | none => "Unknown error"

/-- Modelled from the spec (amended): the full message selection over the
parse outcome. -/
def specErrorMessage (parsed : Option JsVal) : String :=
  match parsed with
  | none => "Unknown error"
  | some body =>
    match jsField body "message" with
    | some m => if m ≠ "" then m else specErrFallback (jsField body "error")
    | none => specErrFallback (jsField body "error")

/-- Modelled from the spec: trimming of leading and trailing whitespace
(`String.prototype.trim`), used only to state that a credential input is
empty after trimming. -/
def trimModel (s : String) : String :=
  String.mk
    (((s.data.dropWhile Char.isWhitespace).reverse.dropWhile
      Char.isWhitespace).reverse)

/-! ## Claims C6 and C10 -/

/-- Fixed digest stand-in used by the witnesses; the claims hold for every
digest function, so any concrete one will do. -/
def dummyHmac : String → String → String := fun _ _ => "test_signature"

/-! ## Theorems -/

theorem utf8Step_snd_length (b : Nat) (rest : List Nat) :
    (utf8Step b rest).2.length ≤ rest.length := by
  rcases rest with _ | ⟨b2, _ | ⟨b3, _ | ⟨b4, rest4⟩⟩⟩ <;>
    · unfold utf8Step
      split_ifs <;> simp [List.length] <;> omega

theorem char_toNat_lt (c : Char) : c.toNat < 0x110000 := by
  rcases c with ⟨v, hv⟩
  rcases hv with h | ⟨h1, h2⟩
  · exact Nat.lt_trans h (by norm_num)
  · exact h2

theorem utf8DecodeAux_fuel :
    ∀ (fuel₁ fuel₂ : Nat) (l : List Nat), l.length ≤ fuel₁ → l.length ≤ fuel₂ →
      utf8DecodeAux fuel₁ l = utf8DecodeAux fuel₂ l := by
  intro fuel₁
  induction fuel₁ with
  | zero =>
    intro fuel₂ l h₁ _
    have : l = [] := List.eq_nil_of_length_eq_zero (Nat.le_zero.mp h₁)
    subst this
    cases fuel₂ <;> rfl
  | succ f ih =>
    intro fuel₂ l h₁ h₂
    cases l with
    | nil => cases fuel₂ <;> rfl
    | cons b rest =>
      cases fuel₂ with
      | zero => simp at h₂
      | succ f₂ =>
        simp only [utf8DecodeAux]
        congr 1
        exact ih f₂ (utf8Step b rest).2
          (Nat.le_trans (utf8Step_snd_length b rest) (by simpa using h₁))
          (Nat.le_trans (utf8Step_snd_length b rest) (by simpa using h₂))

theorem utf8DecodeBytes_cons (b : Nat) (rest : List Nat) :
    utf8DecodeBytes (b :: rest)
      = (utf8Step b rest).1 :: utf8DecodeBytes (utf8Step b rest).2 := by
  unfold utf8DecodeBytes
  simp only [List.length_cons, utf8DecodeAux]
  congr 1
  exact utf8DecodeAux_fuel rest.length (utf8Step b rest).2.length
    (utf8Step b rest).2 (utf8Step_snd_length b rest) (Nat.le_refl _)

theorem utf8DecodeBytes_utf8Bytes (c : Char) (rest : List Nat) :
    utf8DecodeBytes (utf8Bytes c ++ rest) = c :: utf8DecodeBytes rest := by
  have hlt := char_toNat_lt c
  by_cases h1 : c.toNat < 0x80
  · rw [show utf8Bytes c = [c.toNat] by unfold utf8Bytes; rw [if_pos h1],
      List.singleton_append, utf8DecodeBytes_cons,
      show utf8Step c.toNat rest = (c, rest) by
        unfold utf8Step; rw [if_pos h1, Char.ofNat_toNat]]
  · by_cases h2 : c.toNat < 0x800
    · rw [show utf8Bytes c = [0xC0 + c.toNat / 64, 0x80 + c.toNat % 64] by
        unfold utf8Bytes; rw [if_neg h1, if_pos h2]]
      simp only [List.cons_append, List.nil_append]
      rw [utf8DecodeBytes_cons,
        show utf8Step (0xC0 + c.toNat / 64) ((0x80 + c.toNat % 64) :: rest)
            = (c, rest) by
          unfold utf8Step
          rw [if_neg (by omega), if_neg (by omega), if_pos (by omega)]
          show (if isCont (0x80 + c.toNat % 64) then
              Char.ofNat ((0xC0 + c.toNat / 64 - 0xC0) * 64 +
                (0x80 + c.toNat % 64 - 0x80))
            else replacementChar, rest) = (c, rest)
          rw [if_pos (by simp only [isCont, decide_eq_true_eq]; omega),
            show (0xC0 + c.toNat / 64 - 0xC0) * 64 + (0x80 + c.toNat % 64 - 0x80)
              = c.toNat by omega, Char.ofNat_toNat]]
    · by_cases h3 : c.toNat < 0x10000
      · rw [show utf8Bytes c = [0xE0 + c.toNat / 4096, 0x80 + c.toNat / 64 % 64,
            0x80 + c.toNat % 64] by
          unfold utf8Bytes; rw [if_neg h1, if_neg h2, if_pos h3]]
        simp only [List.cons_append, List.nil_append]
        rw [utf8DecodeBytes_cons,
          show utf8Step (0xE0 + c.toNat / 4096)
              ((0x80 + c.toNat / 64 % 64) :: (0x80 + c.toNat % 64) :: rest)
              = (c, rest) by
            unfold utf8Step
            rw [if_neg (by omega), if_neg (by omega), if_neg (by omega),
              if_pos (by omega)]
            show (if isCont (0x80 + c.toNat / 64 % 64) &&
                isCont (0x80 + c.toNat % 64) then
                Char.ofNat ((0xE0 + c.toNat / 4096 - 0xE0) * 4096 +
                  (0x80 + c.toNat / 64 % 64 - 0x80) * 64 +
                  (0x80 + c.toNat % 64 - 0x80))
              else replacementChar, rest) = (c, rest)
            rw [if_pos (by
                simp only [isCont, Bool.and_eq_true, decide_eq_true_eq]
                omega),
              show (0xE0 + c.toNat / 4096 - 0xE0) * 4096 +
                  (0x80 + c.toNat / 64 % 64 - 0x80) * 64 +
                  (0x80 + c.toNat % 64 - 0x80) = c.toNat by omega,
              Char.ofNat_toNat]]
      · rw [show utf8Bytes c = [0xF0 + c.toNat / 262144,
            0x80 + c.toNat / 4096 % 64, 0x80 + c.toNat / 64 % 64,
            0x80 + c.toNat % 64] by
          unfold utf8Bytes; rw [if_neg h1, if_neg h2, if_neg h3]]
        simp only [List.cons_append, List.nil_append]
        rw [utf8DecodeBytes_cons,
          show utf8Step (0xF0 + c.toNat / 262144)
              ((0x80 + c.toNat / 4096 % 64) :: (0x80 + c.toNat / 64 % 64) ::
                (0x80 + c.toNat % 64) :: rest) = (c, rest) by
            unfold utf8Step
            rw [if_neg (by omega), if_neg (by omega), if_neg (by omega),
              if_neg (by omega)]
            show (if isCont (0x80 + c.toNat / 4096 % 64) &&
                isCont (0x80 + c.toNat / 64 % 64) &&
                isCont (0x80 + c.toNat % 64) then
                Char.ofNat ((0xF0 + c.toNat / 262144 - 0xF0) * 262144 +
                  (0x80 + c.toNat / 4096 % 64 - 0x80) * 4096 +
                  (0x80 + c.toNat / 64 % 64 - 0x80) * 64 +
                  (0x80 + c.toNat % 64 - 0x80))
              else replacementChar, rest) = (c, rest)
            rw [if_pos (by
                simp only [isCont, Bool.and_eq_true, decide_eq_true_eq]
                omega),
              show (0xF0 + c.toNat / 262144 - 0xF0) * 262144 +
                  (0x80 + c.toNat / 4096 % 64 - 0x80) * 4096 +
                  (0x80 + c.toNat / 64 % 64 - 0x80) * 64 +
                  (0x80 + c.toNat % 64 - 0x80) = c.toNat by omega,
              Char.ofNat_toNat]]

/-- Decoding inverts encoding on every character sequence. -/
theorem utf8DecodeBytes_utf8EncodeBytes (l : List Char) :
    utf8DecodeBytes (utf8EncodeBytes l) = l := by
  induction l with
  | nil => rfl
  | cons c cs ih => rw [utf8EncodeBytes, utf8DecodeBytes_utf8Bytes, ih]

theorem utf8EncodeBytes_injective : Function.Injective utf8EncodeBytes := by
  intro a b h
  have := congrArg utf8DecodeBytes h
  rwa [utf8DecodeBytes_utf8EncodeBytes, utf8DecodeBytes_utf8EncodeBytes] at this

theorem utf8Bytes_lt_256 (c : Char) : ∀ b ∈ utf8Bytes c, b < 256 := by
  have hlt := char_toNat_lt c
  intro b hb
  unfold utf8Bytes at hb
  split_ifs at hb <;>
    simp only [List.mem_cons, List.not_mem_nil, or_false] at hb <;> omega

theorem hexVal_hexDigitChar : ∀ m, m < 16 → hexVal (hexDigitChar m) = some m := by
  decide

theorem pctStep_snd_length (plus : Bool) (c : Char) (rest : List Char) :
    (pctStep plus c rest).2.length ≤ rest.length := by
  rcases rest with _ | ⟨h, _ | ⟨l, rest2⟩⟩
  · unfold pctStep
    split_ifs <;> simp
  · unfold pctStep
    split_ifs <;> simp
  · unfold pctStep
    split_ifs <;>
      · cases hh : hexVal h <;> cases hl : hexVal l <;> simp [hh, hl] <;> omega

theorem pctDecodeAux_fuel (plus : Bool) :
    ∀ (fuel₁ fuel₂ : Nat) (l : List Char), l.length ≤ fuel₁ → l.length ≤ fuel₂ →
      pctDecodeAux plus fuel₁ l = pctDecodeAux plus fuel₂ l := by
  intro fuel₁
  induction fuel₁ with
  | zero =>
    intro fuel₂ l h₁ _
    have : l = [] := List.eq_nil_of_length_eq_zero (Nat.le_zero.mp h₁)
    subst this
    cases fuel₂ <;> rfl
  | succ f ih =>
    intro fuel₂ l h₁ h₂
    cases l with
    | nil => cases fuel₂ <;> rfl
    | cons c rest =>
      cases fuel₂ with
      | zero => simp at h₂
      | succ f₂ =>
        simp only [pctDecodeAux]
        congr 1
        exact ih f₂ (pctStep plus c rest).2
          (Nat.le_trans (pctStep_snd_length plus c rest) (by simpa using h₁))
          (Nat.le_trans (pctStep_snd_length plus c rest) (by simpa using h₂))

theorem percentDecodeBytes_cons (plus : Bool) (c : Char) (rest : List Char) :
    percentDecodeBytes plus (c :: rest)
      = (pctStep plus c rest).1 ++ percentDecodeBytes plus (pctStep plus c rest).2 := by
  unfold percentDecodeBytes
  simp only [List.length_cons, pctDecodeAux]
  congr 1
  exact pctDecodeAux_fuel plus rest.length (pctStep plus c rest).2.length
    (pctStep plus c rest).2 (pctStep_snd_length plus c rest) (Nat.le_refl _)

theorem pctStep_percentByte (plus : Bool) (b : Nat) (hb : b < 256)
    (tail : List Char) :
    pctStep plus '%' (hexDigitChar (b / 16) :: hexDigitChar (b % 16) :: tail)
      = ([b], tail) := by
  unfold pctStep
  rw [if_pos rfl]
  show (match hexVal (hexDigitChar (b / 16)), hexVal (hexDigitChar (b % 16)) with
    | some a, some b2 => ([16 * a + b2], tail)
    | _, _ => (utf8Bytes '%' ++ utf8Bytes (hexDigitChar (b / 16)) ++
        utf8Bytes (hexDigitChar (b % 16)), tail)) = ([b], tail)
  rw [hexVal_hexDigitChar _ (by omega), hexVal_hexDigitChar _ (by omega)]
  show ([16 * (b / 16) + b % 16], tail) = ([b], tail)
  rw [show 16 * (b / 16) + b % 16 = b by omega]

theorem percentDecodeBytes_percentByte (plus : Bool) (b : Nat) (hb : b < 256)
    (tail : List Char) :
    percentDecodeBytes plus (percentByte b ++ tail)
      = b :: percentDecodeBytes plus tail := by
  unfold percentByte
  simp only [List.cons_append, List.nil_append]
  rw [percentDecodeBytes_cons, pctStep_percentByte plus b hb tail]
  rfl

theorem percentDecodeBytes_percentEncodeAll (plus : Bool) (bs : List Nat)
    (h : ∀ b ∈ bs, b < 256) (tail : List Char) :
    percentDecodeBytes plus (percentEncodeAll bs ++ tail)
      = bs ++ percentDecodeBytes plus tail := by
  induction bs with
  | nil => simp [percentEncodeAll]
  | cons b bs ih =>
    rw [percentEncodeAll, List.append_assoc,
      percentDecodeBytes_percentByte plus b (h b (List.mem_cons_self b bs)),
      ih (fun x hx => h x (List.mem_cons_of_mem b hx))]
    rfl

theorem jsUnreserved_ascii {c : Char} (hc : jsUnreserved c = true) :
    c.toNat < 0x80 ∧ c ≠ '%' ∧ c ≠ '+' := by
  unfold jsUnreserved at hc
  rw [decide_eq_true_eq] at hc
  refine ⟨by omega, fun h => ?_, fun h => ?_⟩ <;> subst h <;> revert hc <;> decide

theorem percentDecodeBytes_cons_lit (plus : Bool) (c : Char) (rest : List Char)
    (h1 : c ≠ '%') (h2 : ¬(plus = true ∧ c = '+')) :
    percentDecodeBytes plus (c :: rest)
      = utf8Bytes c ++ percentDecodeBytes plus rest := by
  rw [percentDecodeBytes_cons,
    show pctStep plus c rest = (utf8Bytes c, rest) by
      unfold pctStep; rw [if_neg h1, if_neg h2]]

theorem percentDecodeBytes_encodeURIChars (l : List Char) :
    percentDecodeBytes false (encodeURIChars l) = utf8EncodeBytes l := by
  induction l with
  | nil => rfl
  | cons c cs ih =>
    rw [encodeURIChars, utf8EncodeBytes]
    by_cases hc : jsUnreserved c = true
    · obtain ⟨hlt, hpct, _⟩ := jsUnreserved_ascii hc
      rw [if_pos hc, List.singleton_append,
        percentDecodeBytes_cons_lit false c _ hpct (by simp), ih]
    · rw [if_neg hc,
        percentDecodeBytes_percentEncodeAll false _ (utf8Bytes_lt_256 c) _, ih]

theorem percentDecodeBytes_encodeURIComponent (s : String) :
    percentDecodeBytes false (encodeURIComponent s).data = utf8EncodeBytes s.data :=
  percentDecodeBytes_encodeURIChars s.data

theorem string_data_inj {a b : String} (h : a.data = b.data) : a = b := by
  cases a; cases b; exact congrArg String.mk h

theorem encodeURIComponent_injective : Function.Injective encodeURIComponent := by
  intro a b h
  have hbytes := congrArg (fun s => percentDecodeBytes false s.data) h
  simp only [percentDecodeBytes_encodeURIComponent] at hbytes
  have := congrArg utf8DecodeBytes hbytes
  rw [utf8DecodeBytes_utf8EncodeBytes, utf8DecodeBytes_utf8EncodeBytes] at this
  exact string_data_inj this

theorem hexDigitChar_unreserved : ∀ m, m < 16 → jsUnreserved (hexDigitChar m) = true := by
  decide

theorem mem_percentEncodeAll {c : Char} {bs : List Nat} (h : ∀ b ∈ bs, b < 256)
    (hc : c ∈ percentEncodeAll bs) : jsUnreserved c = true ∨ c = '%' := by
  induction bs with
  | nil => simp [percentEncodeAll] at hc
  | cons b rest ih =>
    rw [percentEncodeAll, List.mem_append] at hc
    rcases hc with hc | hc
    · have hb : b < 256 := h b (List.mem_cons_self b rest)
      unfold percentByte at hc
      simp only [List.mem_cons, List.not_mem_nil, or_false] at hc
      rcases hc with hc | hc | hc
      · exact Or.inr hc
      · exact Or.inl (hc ▸ hexDigitChar_unreserved _ (by omega))
      · exact Or.inl (hc ▸ hexDigitChar_unreserved _ (by omega))
    · exact ih (fun x hx => h x (List.mem_cons_of_mem b hx)) hc

theorem mem_encodeURIChars {c : Char} {l : List Char}
    (hc : c ∈ encodeURIChars l) : jsUnreserved c = true ∨ c = '%' := by
  induction l with
  | nil => simp [encodeURIChars] at hc
  | cons x xs ih =>
    rw [encodeURIChars, List.mem_append] at hc
    rcases hc with hc | hc
    · by_cases hx : jsUnreserved x = true
      · rw [if_pos hx, List.mem_singleton] at hc
        exact Or.inl (hc ▸ hx)
      · rw [if_neg hx] at hc
        exact mem_percentEncodeAll (utf8Bytes_lt_256 x) hc
    · exact ih hc

theorem char_toNat_inj {c d : Char} (h : c.toNat = d.toNat) : c = d := by
  rw [← Char.ofNat_toNat c, ← Char.ofNat_toNat d, h]

theorem ordering_then_swap (o₁ o₂ : Ordering) :
    (o₁.then o₂).swap = o₁.swap.then o₂.swap := by
  cases o₁ <;> rfl

theorem ordering_then_eq_iff {o₁ o₂ : Ordering} :
    o₁.then o₂ = .eq ↔ o₁ = .eq ∧ o₂ = .eq := by
  cases o₁ <;> simp [Ordering.then]

theorem cmpNat_swap (a b : Nat) : cmpNat a b = (cmpNat b a).swap := by
  unfold cmpNat
  split_ifs <;> first | rfl | omega

theorem cmpNat_eq_iff {a b : Nat} : cmpNat a b = .eq ↔ a = b := by
  unfold cmpNat
  split_ifs <;> simp <;> omega

theorem cmpNat_lt_iff {a b : Nat} : cmpNat a b = .lt ↔ a < b := by
  unfold cmpNat
  split_ifs <;> simp <;> omega

theorem cmpList_swap : ∀ as bs : List Nat, cmpList as bs = (cmpList bs as).swap
  | [], [] => rfl
  | [], _ :: _ => rfl
  | _ :: _, [] => rfl
  | a :: as, b :: bs => by
    rw [cmpList, cmpList, ordering_then_swap, ← cmpNat_swap, ← cmpList_swap as bs]

theorem cmpList_eq_iff : ∀ {as bs : List Nat}, cmpList as bs = .eq ↔ as = bs
  | [], [] => by simp [cmpList]
  | [], _ :: _ => by simp [cmpList]
  | _ :: _, [] => by simp [cmpList]
  | a :: as, b :: bs => by
    rw [cmpList, ordering_then_eq_iff, cmpNat_eq_iff, cmpList_eq_iff]
    simp

theorem cmpList_trans_lt :
    ∀ {as bs cs : List Nat}, cmpList as bs = .lt → cmpList bs cs = .lt →
      cmpList as cs = .lt
  | [], _ :: _, _ :: _, _, _ => rfl
  | [], [], _, h1, _ => by simp [cmpList] at h1
  | [], _ :: _, [], _, h2 => by simp [cmpList] at h2
  | _ :: _, [], _, h1, _ => by simp [cmpList] at h1
  | _ :: _, _ :: _, [], _, h2 => by simp [cmpList] at h2
  | a :: as, b :: bs, c :: cs, h1, h2 => by
    rw [cmpList] at h1 h2 ⊢
    cases hab : cmpNat a b with
    | gt => rw [hab] at h1; exact absurd h1 (by simp [Ordering.then])
    | lt =>
      cases hbc : cmpNat b c with
      | gt => rw [hbc] at h2; exact absurd h2 (by simp [Ordering.then])
      | lt =>
        have : cmpNat a c = .lt := by
          rw [cmpNat_lt_iff] at hab hbc ⊢
          omega
        rw [this]; rfl
      | eq =>
        have : cmpNat a c = .lt := by
          rw [cmpNat_eq_iff] at hbc
          rw [cmpNat_lt_iff] at hab ⊢
          omega
        rw [this]; rfl
    | eq =>
      have hab' := cmpNat_eq_iff.mp hab
      cases hbc : cmpNat b c with
      | gt => rw [hbc] at h2; exact absurd h2 (by simp [Ordering.then])
      | lt =>
        have : cmpNat a c = .lt := by
          rw [cmpNat_lt_iff] at hbc ⊢
          omega
        rw [this]; rfl
      | eq =>
        have hbc' := cmpNat_eq_iff.mp hbc
        have hac : cmpNat a c = .eq := cmpNat_eq_iff.mpr (hab'.trans hbc')
        rw [hac] at *
        rw [hab] at h1
        rw [hbc] at h2
        simp only [Ordering.then] at h1 h2 ⊢
        exact cmpList_trans_lt h1 h2

theorem cmpList_ne_gt_iff {as bs : List Nat} :
    cmpList as bs ≠ .gt ↔ cmpList as bs = .lt ∨ as = bs := by
  cases h : cmpList as bs <;> simp [← cmpList_eq_iff, h]

theorem cmpList_le_trans {as bs cs : List Nat} (h1 : cmpList as bs ≠ .gt)
    (h2 : cmpList bs cs ≠ .gt) : cmpList as cs ≠ .gt := by
  rw [cmpList_ne_gt_iff] at h1 h2 ⊢
  rcases h1 with h1 | h1 <;> rcases h2 with h2 | h2
  · exact Or.inl (cmpList_trans_lt h1 h2)
  · exact Or.inl (h2 ▸ h1)
  · exact Or.inl (h1 ▸ h2)
  · exact Or.inr (h1.trans h2)

theorem localeCompareChars_swap (a b : List Char) :
    localeCompareChars a b = (localeCompareChars b a).swap := by
  unfold localeCompareChars
  rw [ordering_then_swap, ordering_then_swap, ← cmpList_swap, ← cmpList_swap,
    ← cmpList_swap]

theorem toNat_lists_inj :
    ∀ {a b : List Char}, a.map Char.toNat = b.map Char.toNat → a = b
  | [], [], _ => rfl
  | [], _ :: _, h => by simp at h
  | _ :: _, [], h => by simp at h
  | x :: xs, y :: ys, h => by
    simp only [List.map_cons, List.cons.injEq] at h
    exact List.cons_eq_cons.mpr ⟨char_toNat_inj h.1, toNat_lists_inj h.2⟩

theorem localeCompareChars_eq_iff {a b : List Char} :
    localeCompareChars a b = .eq ↔ a = b := by
  unfold localeCompareChars
  rw [ordering_then_eq_iff, ordering_then_eq_iff, cmpList_eq_iff, cmpList_eq_iff,
    cmpList_eq_iff]
  constructor
  · exact fun h => toNat_lists_inj h.2.2
  · rintro rfl; exact ⟨rfl, rfl, rfl⟩

theorem lex_le_trans (f : List Char → List Nat)
    (g : List Char → List Char → Ordering)
    (hg : ∀ {x y z : List Char}, g x y ≠ .gt → g y z ≠ .gt → g x z ≠ .gt)
    {a b c : List Char}
    (h1 : (cmpList (f a) (f b)).then (g a b) ≠ .gt)
    (h2 : (cmpList (f b) (f c)).then (g b c) ≠ .gt) :
    (cmpList (f a) (f c)).then (g a c) ≠ .gt := by
  have split1 : ∀ {o₁ o₂ : Ordering}, o₁.then o₂ ≠ .gt →
      o₁ = .lt ∨ (o₁ = .eq ∧ o₂ ≠ .gt) := by
    intro o₁ o₂ h
    cases o₁ <;> simp_all [Ordering.then]
  rcases split1 h1 with hp1 | ⟨hp1, ht1⟩ <;> rcases split1 h2 with hp2 | ⟨hp2, ht2⟩
  · have := cmpList_trans_lt hp1 hp2
    rw [this]; simp [Ordering.then]
  · rw [cmpList_eq_iff] at hp2
    rw [← hp2, hp1]
    simp [Ordering.then]
  · rw [cmpList_eq_iff] at hp1
    rw [hp1, hp2]
    simp [Ordering.then]
  · rw [cmpList_eq_iff] at hp1 hp2
    rw [hp1, hp2]
    rw [cmpList_eq_iff.mpr rfl]
    simp only [Ordering.then]
    exact hg ht1 ht2

theorem localeCompareChars_le_trans {a b c : List Char}
    (h1 : localeCompareChars a b ≠ .gt) (h2 : localeCompareChars b c ≠ .gt) :
    localeCompareChars a c ≠ .gt := by
  unfold localeCompareChars at h1 h2 ⊢
  exact lex_le_trans (fun x => x.map primWeight)
    (fun x y => (cmpList (x.map tertWeight) (y.map tertWeight)).then
      (cmpList (x.map Char.toNat) (y.map Char.toNat)))
    (fun hx hy => lex_le_trans (fun x => x.map tertWeight)
      (fun x y => cmpList (x.map Char.toNat) (y.map Char.toNat))
      (fun hu hv => cmpList_le_trans hu hv) hx hy)
    h1 h2

theorem paramLe_total (a b : String × String) : paramLe a b ∨ paramLe b a := by
  unfold paramLe localeCompare
  cases h : localeCompareChars a.1.data b.1.data with
  | lt => exact Or.inl (by simp [h])
  | eq => exact Or.inl (by simp [h])
  | gt =>
    refine Or.inr ?_
    rw [localeCompareChars_swap, h]
    simp [Ordering.swap]

theorem keyLe_antisymm (a b : String) (h1 : keyLe a b) (h2 : keyLe b a) :
    a = b := by
  unfold keyLe localeCompare at h1 h2
  cases h : localeCompareChars a.data b.data with
  | lt =>
    exfalso
    apply h2
    rw [localeCompareChars_swap, h]
    rfl
  | eq => exact string_data_inj (localeCompareChars_eq_iff.mp h)
  | gt => exact absurd h h1

theorem sorted_insertionSort_paramLe (l : List (String × String)) :
    List.Sorted paramLe (List.insertionSort paramLe l) :=
  @List.sorted_insertionSort _ paramLe _ ⟨paramLe_total⟩
    ⟨fun _ _ _ h1 h2 => localeCompareChars_le_trans h1 h2⟩ l

theorem sorted_map_fst {l : List (String × String)} (h : List.Sorted paramLe l) :
    List.Sorted keyLe (l.map Prod.fst) :=
  List.Pairwise.map Prod.fst (fun _ _ hab => hab) h

theorem perm_eq_of_map_fst_eq {α β : Type} :
    ∀ (l₁ l₂ : List (α × β)), l₁.Perm l₂ → l₁.map Prod.fst = l₂.map Prod.fst →
      (l₁.map Prod.fst).Nodup → l₁ = l₂ := by
  intro l₁
  induction l₁ with
  | nil =>
    intro l₂ hp _ _
    exact (hp.symm.eq_nil).symm
  | cons p t ih =>
    intro l₂ hp hmap hnd
    cases l₂ with
    | nil => simp at hmap
    | cons q t₂ =>
      simp only [List.map_cons, List.cons.injEq] at hmap
      have hpq : p = q := by
        rcases List.mem_cons.mp (hp.mem_iff.mp (List.mem_cons_self p t)) with h | h
        · exact h
        · exfalso
          have hmem : p.1 ∈ t₂.map Prod.fst := List.mem_map_of_mem Prod.fst h
          rw [← hmap.2] at hmem
          rw [List.map_cons, List.nodup_cons] at hnd
          exact hnd.1 hmem
      subst hpq
      rw [ih t₂ (hp.cons_inv) hmap.2
        (by rw [List.map_cons, List.nodup_cons] at hnd; exact hnd.2)]

theorem nodup_keys_encodePair {l : List (String × String)}
    (h : (l.map Prod.fst).Nodup) : ((l.map encodePair).map Prod.fst).Nodup := by
  have : (l.map encodePair).map Prod.fst = (l.map Prod.fst).map encodeURIComponent := by
    rw [List.map_map, List.map_map]
    rfl
  rw [this]
  exact h.map encodeURIComponent_injective

theorem insertionSort_eq_of_perm {l₁ l₂ : List (String × String)}
    (hp : l₁.Perm l₂) (hnd : (l₁.map Prod.fst).Nodup) :
    List.insertionSort paramLe l₁ = List.insertionSort paramLe l₂ := by
  have hperm : (List.insertionSort paramLe l₁).Perm (List.insertionSort paramLe l₂) :=
    (List.perm_insertionSort paramLe l₁).trans
      (hp.trans (List.perm_insertionSort paramLe l₂).symm)
  have hs₁ := sorted_insertionSort_paramLe l₁
  have hs₂ := sorted_insertionSort_paramLe l₂
  have hmap : (List.insertionSort paramLe l₁).map Prod.fst
      = (List.insertionSort paramLe l₂).map Prod.fst :=
    @List.eq_of_perm_of_sorted _ keyLe ⟨keyLe_antisymm⟩ _ _ (hperm.map Prod.fst)
      (sorted_map_fst hs₁) (sorted_map_fst hs₂)
  refine perm_eq_of_map_fst_eq _ _ hperm hmap ?_
  have : ((List.insertionSort paramLe l₁).map Prod.fst).Perm (l₁.map Prod.fst) :=
    (List.perm_insertionSort paramLe l₁).map Prod.fst
  exact this.nodup_iff.mpr hnd

/-- Appending strings concatenates their character lists. -/
theorem string_append_data (a b : String) : (a ++ b).data = a.data ++ b.data := rfl

/-- C1: for every parameter map (modelled as its `Object.entries`
association list, whose keys are distinct), `normalizeParameters` is
insertion-order independent: two entry lists containing the same key-value
pairs in different orders produce identical output strings. -/
theorem claim_C1 (l₁ l₂ : List (String × String)) (hp : l₁.Perm l₂)
    (hnd : (l₁.map Prod.fst).Nodup) :
    normalizeParameters l₁ = normalizeParameters l₂ := by
  unfold normalizeParameters
  rw [insertionSort_eq_of_perm (hp.map encodePair) (nodup_keys_encodePair hnd)]

/-- Witness for C1 at the spec's example: `normalize({b:"2", a:"1"})` equals
`normalize({a:"1", b:"2"})`. -/
theorem claim_C1_witness :
    normalizeParameters [("b", "2"), ("a", "1")]
      = normalizeParameters [("a", "1"), ("b", "2")] :=
  claim_C1 _ _ (List.Perm.swap ("a", "1") ("b", "2") []) (by decide)

/-- C2 counterexample: the claim says every character outside the RFC 3986
unreserved set (letters, digits, `-` `.` `_` `~`) is percent-escaped, which
at the input `{a: "!"}` would force output `a=%21`; the code's
`encodeURIComponent` leaves `!` unescaped, so the output is `a=!`. -/
theorem claim_C2_counterexample :
    normalizeParameters [("a", "!")] = "a=!" ∧
    specRfc3986Encode "!" = "%21" ∧
    ("a=!" : String) ≠ "a=%21" :=
  ⟨by decide, by decide, by decide⟩

/-- C2 amended: `normalizeParameters` percent-encodes keys and values by the
`encodeURIComponent` rule — every character other than letters, digits and
`- _ . ! ~ * ' ( )` is escaped as the uppercase-hex percent-encoding of its
UTF-8 bytes (space becomes `%20`, never `+`): the output consists only of
unescaped-set characters and percent escapes, percent-decoding the output
recovers exactly the UTF-8 bytes of the input, and in particular `&` and
`=` in a value are escaped, so
`normalizeParameters({special_chars: "test&param=value"})` is
`"special_chars=test%26param%3Dvalue"`. -/
theorem claim_C2 :
    (∀ s : String,
      percentDecodeBytes false (encodeURIComponent s).data
        = utf8EncodeBytes s.data) ∧
    (∀ s : String, ∀ c ∈ (encodeURIComponent s).data,
      jsUnreserved c = true ∨ c = '%') ∧
    encodeURIComponent " " = "%20" ∧
    encodeURIComponent "!" = "!" ∧
    normalizeParameters [("special_chars", "test&param=value")]
      = "special_chars=test%26param%3Dvalue" :=
  ⟨percentDecodeBytes_encodeURIComponent,
   fun _ _ hc => mem_encodeURIChars hc,
   by decide, by decide, by decide⟩

/-- Witness for C2 at concrete inputs: the decode round trip at `"a b"` and
the output-character condition at the `%` of `encodeURIComponent " "`. -/
theorem claim_C2_witness :
    percentDecodeBytes false (encodeURIComponent "a b").data
      = utf8EncodeBytes ("a b" : String).data ∧
    (jsUnreserved '%' = true ∨ '%' = '%') :=
  ⟨claim_C2.1 "a b", claim_C2.2.1 " " '%' (by decide)⟩

/-- C3 counterexample: the claim says pairs are sorted by the percent-encoded
key under byte/codepoint ordering; the code sorts with
`localeCompare`, whose collation puts `"a"` before `"B"`, while codepoint
ordering puts `"B"` (0x42) before `"a"` (0x61). -/
theorem claim_C3_counterexample :
    normalizeParameters [("a", "1"), ("B", "2")] = "a=1&B=2" ∧
    specNormalizeByCodepoint [("a", "1"), ("B", "2")] = "B=2&a=1" ∧
    ("a=1&B=2" : String) ≠ "B=2&a=1" :=
  ⟨by decide, by decide, by decide⟩

/-- C3 amended: the key=value pairs in the output of `normalizeParameters`
appear sorted by the percent-encoded key under the `localeCompare` collation
order (under which e.g. `"a"` precedes `"B"`), not raw byte/codepoint
ordering, and they are exactly the encoded input pairs, joined with `&`. -/
theorem claim_C3 (params : List (String × String)) :
    List.Sorted paramLe (List.insertionSort paramLe (params.map encodePair)) ∧
    (List.insertionSort paramLe (params.map encodePair)).Perm
      (params.map encodePair) ∧
    normalizeParameters params
      = String.mk (joinSep ['&']
          ((List.insertionSort paramLe (params.map encodePair)).map
            (fun p => p.1.data ++ '=' :: p.2.data))) :=
  ⟨sorted_insertionSort_paramLe _, List.perm_insertionSort paramLe _, rfl⟩

/-- C4: `constructSigningKey` returns the percent-encoded consumer secret,
then `&`, then the percent-encoded token secret when one is supplied and the
empty string otherwise; the trailing `&` is present even without a token
secret, so `constructSigningKey "secret"` is `"secret&"`. -/
theorem claim_C4 :
    (∀ (cs : String) (ts : Option String),
      constructSigningKey cs ts
        = encodeURIComponent cs ++ "&" ++ ts.elim "" encodeURIComponent) ∧
    constructSigningKey "secret" none = "secret&" ∧
    constructSigningKey "consumer&secret" (some "token=secret")
      = "consumer%26secret&token%3Dsecret" := by
  refine ⟨?_, by decide, by decide⟩
  intro cs ts
  unfold constructSigningKey
  cases ts with
  | none => rfl
  | some t =>
    show encodeURIComponent cs ++ "&" ++ (if t = "" then "" else encodeURIComponent t)
      = encodeURIComponent cs ++ "&" ++ encodeURIComponent t
    by_cases h : t = ""
    · subst h
      rw [if_pos rfl]
      rfl
    · rw [if_neg h]

/-- C5: `constructBaseString` returns the uppercased method, the
percent-encoded url and the percent-encoded normalized parameter string
joined by `&`, and at the spec's example input produces exactly the expected
base string. -/
theorem claim_C5 :
    (∀ method url normalizedParams : String,
      constructBaseString method url normalizedParams
        = toUpperString method ++ "&" ++ encodeURIComponent url ++ "&"
          ++ encodeURIComponent normalizedParams) ∧
    constructBaseString "GET" "https://api.example.com/v2/home/user/verify"
        "oauth_consumer_key=test_key"
      = "GET&https%3A%2F%2Fapi.example.com%2Fv2%2Fhome%2Fuser%2Fverify&oauth_consumer_key%3Dtest_key" := by
  constructor
  · intro method url normalizedParams
    apply string_data_inj
    simp [constructBaseString, joinSep, string_append_data]
  · decide

theorem char_toNat_ofNat {n : Nat} (h : n < 0xd800) : (Char.ofNat n).toNat = n := by
  have hv : n.isValidChar := Or.inl h
  simp [Char.ofNat, hv]
  rfl

theorem splitOnChar_ne_nil (sep : Char) : ∀ l, splitOnChar sep l ≠ [] := by
  intro l
  cases l with
  | nil => simp [splitOnChar]
  | cons c rest =>
    simp only [splitOnChar]
    split_ifs
    · simp
    · cases h : splitOnChar sep rest <;> simp

theorem splitOnChar_not_mem (sep : Char) :
    ∀ l, sep ∉ l → splitOnChar sep l = [l] := by
  intro l
  induction l with
  | nil => intro _; rfl
  | cons c rest ih =>
    intro h
    rw [List.mem_cons, not_or] at h
    simp only [splitOnChar]
    rw [if_neg (fun hc => h.1 hc.symm), ih h.2]

theorem splitOnChar_append (sep : Char) :
    ∀ (a rest : List Char), sep ∉ a →
      splitOnChar sep (a ++ sep :: rest) = a :: splitOnChar sep rest := by
  intro a
  induction a with
  | nil =>
    intro rest _
    simp [splitOnChar]
  | cons c a' ih =>
    intro rest h
    rw [List.mem_cons, not_or] at h
    simp only [List.cons_append, splitOnChar, List.append_eq]
    rw [if_neg (fun hc => h.1 hc.symm), ih rest h.2]

theorem splitFirstEq_append :
    ∀ (k v : List Char), '=' ∉ k → splitFirstEq (k ++ '=' :: v) = (k, v) := by
  intro k
  induction k with
  | nil => intro v _; simp [splitFirstEq]
  | cons c k' ih =>
    intro v h
    rw [List.mem_cons, not_or] at h
    simp only [List.cons_append, splitFirstEq, List.append_eq]
    rw [if_neg (fun hc => h.1 hc.symm), ih v h.2]

theorem percentDecodeBytes_formEncodeBytes (bs : List Nat)
    (hb : ∀ b ∈ bs, b < 256) :
    percentDecodeBytes true (formEncodeBytes bs) = bs := by
  induction bs with
  | nil => rfl
  | cons b rest ih =>
    have hb' : b < 256 := hb b (List.mem_cons_self b rest)
    have hrest := fun x hx => hb x (List.mem_cons_of_mem b hx)
    rw [formEncodeBytes]
    by_cases h32 : b = 32
    · subst h32
      rw [if_pos rfl, List.singleton_append, percentDecodeBytes_cons,
        show pctStep true '+' (formEncodeBytes rest) = ([32], formEncodeBytes rest) by
          unfold pctStep
          rw [if_neg (by decide), if_pos ⟨rfl, rfl⟩],
        ih hrest]
      rfl
    · rw [if_neg h32]
      by_cases hsafe : formSafeByte b = true
      · have hlt : b < 0xd800 := by
          unfold formSafeByte at hsafe
          rw [decide_eq_true_eq] at hsafe
          omega
        have htn : (Char.ofNat b).toNat = b := char_toNat_ofNat hlt
        have hb128 : b < 128 := by
          unfold formSafeByte at hsafe
          rw [decide_eq_true_eq] at hsafe
          omega
        rw [if_pos hsafe, List.singleton_append,
          percentDecodeBytes_cons_lit true (Char.ofNat b) _
            (by
              intro hc
              have h2 := congrArg Char.toNat hc
              rw [htn, show ('%' : Char).toNat = 37 from rfl] at h2
              unfold formSafeByte at hsafe
              rw [decide_eq_true_eq] at hsafe
              omega)
            (by
              rintro ⟨-, hc⟩
              have h2 := congrArg Char.toNat hc
              rw [htn, show ('+' : Char).toNat = 43 from rfl] at h2
              unfold formSafeByte at hsafe
              rw [decide_eq_true_eq] at hsafe
              omega),
          show utf8Bytes (Char.ofNat b) = [b] by
            unfold utf8Bytes
            rw [htn, if_pos hb128],
          ih hrest]
        rfl
      · rw [if_neg hsafe, percentDecodeBytes_percentByte true b hb', ih hrest]

theorem utf8EncodeBytes_lt_256 (l : List Char) :
    ∀ b ∈ utf8EncodeBytes l, b < 256 := by
  induction l with
  | nil => simp [utf8EncodeBytes]
  | cons c cs ih =>
    intro b hb
    rw [utf8EncodeBytes, List.mem_append] at hb
    rcases hb with h | h
    · exact utf8Bytes_lt_256 c b h
    · exact ih b h

theorem formDecode_formEncode (s : String) : formDecode (formEncode s).data = s := by
  unfold formDecode formEncode
  show String.mk (utf8DecodeBytes (percentDecodeBytes true
    (formEncodeBytes (utf8EncodeBytes s.data)))) = s
  rw [percentDecodeBytes_formEncodeBytes _ (utf8EncodeBytes_lt_256 s.data),
    utf8DecodeBytes_utf8EncodeBytes]

theorem ne_char_of_toNat_ne {c d : Char} (h : c.toNat ≠ d.toNat) : c ≠ d :=
  fun he => h (congrArg Char.toNat he)

theorem hexDigitChar_toNat_safe :
    ∀ m, m < 16 → (hexDigitChar m).toNat ≠ 38 ∧ (hexDigitChar m).toNat ≠ 61 ∧
      (hexDigitChar m).toNat ≠ 63 := by
  decide

theorem formEncodeBytes_safe (bs : List Nat) (hb : ∀ b ∈ bs, b < 256) :
    ∀ c ∈ formEncodeBytes bs, c ≠ '&' ∧ c ≠ '=' ∧ c ≠ '?' := by
  induction bs with
  | nil => simp [formEncodeBytes]
  | cons b rest ih =>
    intro c hc
    have hb' : b < 256 := hb b (List.mem_cons_self b rest)
    have hrest := fun x hx => hb x (List.mem_cons_of_mem b hx)
    rw [formEncodeBytes, List.mem_append] at hc
    rcases hc with hc | hc
    · split_ifs at hc with h32 hsafe
      · rw [List.mem_singleton] at hc
        subst hc
        refine ⟨by decide, by decide, by decide⟩
      · rw [List.mem_singleton] at hc
        subst hc
        have hlt : b < 0xd800 := by
          unfold formSafeByte at hsafe
          rw [decide_eq_true_eq] at hsafe
          omega
        have htn := char_toNat_ofNat hlt
        unfold formSafeByte at hsafe
        rw [decide_eq_true_eq] at hsafe
        refine ⟨ne_char_of_toNat_ne ?_, ne_char_of_toNat_ne ?_,
          ne_char_of_toNat_ne ?_⟩
        · rw [htn, show ('&' : Char).toNat = 38 from rfl]; omega
        · rw [htn, show ('=' : Char).toNat = 61 from rfl]; omega
        · rw [htn, show ('?' : Char).toNat = 63 from rfl]; omega
      · unfold percentByte at hc
        simp only [List.mem_cons, List.not_mem_nil, or_false] at hc
        rcases hc with hc | hc | hc
        · subst hc
          refine ⟨by decide, by decide, by decide⟩
        · subst hc
          obtain ⟨x1, x2, x3⟩ := hexDigitChar_toNat_safe (b / 16) (by omega)
          exact ⟨ne_char_of_toNat_ne x1, ne_char_of_toNat_ne x2,
            ne_char_of_toNat_ne x3⟩
        · subst hc
          obtain ⟨x1, x2, x3⟩ := hexDigitChar_toNat_safe (b % 16) (by omega)
          exact ⟨ne_char_of_toNat_ne x1, ne_char_of_toNat_ne x2,
            ne_char_of_toNat_ne x3⟩
    · exact ih hrest c hc

theorem formEncode_data_safe (s : String) :
    ∀ c ∈ (formEncode s).data, c ≠ '&' ∧ c ≠ '=' ∧ c ≠ '?' :=
  formEncodeBytes_safe _ (utf8EncodeBytes_lt_256 s.data)

theorem splitOnChar_joinSep (parts : List (List Char))
    (h : ∀ part ∈ parts, part ≠ [] ∧ '&' ∉ part) :
    (splitOnChar '&' (joinSep ['&'] parts)).filter (fun part => !part.isEmpty)
      = parts := by
  induction parts with
  | nil => rfl
  | cons x xs ih =>
    have hx := h x (List.mem_cons_self _ _)
    have hxe : (!x.isEmpty) = true := by
      cases x with
      | nil => exact absurd rfl hx.1
      | cons _ _ => rfl
    cases xs with
    | nil =>
      rw [show joinSep ['&'] [x] = x from rfl, splitOnChar_not_mem '&' x hx.2,
        List.filter_cons, if_pos hxe]
      rfl
    | cons y ys =>
      have hrest : ∀ part ∈ y :: ys, part ≠ [] ∧ '&' ∉ part :=
        fun p hp => h p (List.mem_cons_of_mem _ hp)
      have hjoin : joinSep ['&'] (x :: y :: ys)
          = x ++ '&' :: joinSep ['&'] (y :: ys) := by
        show x ++ ['&'] ++ joinSep ['&'] (y :: ys) = _
        rw [List.append_assoc]
        rfl
      rw [hjoin, splitOnChar_append '&' x _ hx.2, List.filter_cons, if_pos hxe,
        ih hrest]

/-- Serializing a pair list with `URLSearchParams` and parsing the result
recovers exactly the pairs: query parameters round-trip through the
constructed URL. -/
theorem parseQueryPairs_serializeQuery (qs : List (String × String)) :
    parseQueryPairs (serializeQuery qs).data = qs := by
  unfold parseQueryPairs serializeQuery
  show ((splitOnChar '&' (joinSep ['&'] (qs.map fun p =>
      (formEncode p.1).data ++ '=' :: (formEncode p.2).data))).filter
      (fun part => !part.isEmpty)).map
      (fun part => (formDecode (splitFirstEq part).1,
        formDecode (splitFirstEq part).2)) = qs
  rw [splitOnChar_joinSep _ (by
    intro part hpart
    rw [List.mem_map] at hpart
    obtain ⟨p, _, hp⟩ := hpart
    subst hp
    constructor
    · cases hk : (formEncode p.1).data <;> simp
    · intro hmem
      rw [List.mem_append, List.mem_cons] at hmem
      rcases hmem with hmem | hmem | hmem
      · exact (formEncode_data_safe p.1 '&' hmem).1 rfl
      · exact absurd hmem (by decide)
      · exact (formEncode_data_safe p.2 '&' hmem).1 rfl)]
  rw [List.map_map]
  induction qs with
  | nil => rfl
  | cons p ps ih =>
    rw [List.map_cons, ih]
    congr 1
    show (formDecode (splitFirstEq ((formEncode p.1).data ++ '='
        :: (formEncode p.2).data)).1,
      formDecode (splitFirstEq ((formEncode p.1).data ++ '='
        :: (formEncode p.2).data)).2) = p
    rw [splitFirstEq_append _ _ (fun hmem =>
      (formEncode_data_safe p.1 '=' hmem).2.1 rfl)]
    show (formDecode (formEncode p.1).data, formDecode (formEncode p.2).data) = p
    rw [formDecode_formEncode, formDecode_formEncode]

theorem objLookup_map_replace_ne (o : List (String × String)) (k v k' : String)
    (hk' : k' ≠ k) :
    objLookup (o.map (fun p => if p.1 = k then (k, v) else p)) k'
      = objLookup o k' := by
  induction o with
  | nil => rfl
  | cons p rest ih =>
    rw [List.map_cons]
    by_cases hp : p.1 = k
    · rw [if_pos hp, objLookup, objLookup, if_neg (fun h => hk' h.symm),
        if_neg (by rw [hp]; exact fun h => hk' h.symm), ih]
    · rw [if_neg hp, objLookup, objLookup, ih]

theorem objLookup_map_replace_self (o : List (String × String)) (k v : String)
    (hk : ∃ p ∈ o, p.1 = k) :
    objLookup (o.map (fun p => if p.1 = k then (k, v) else p)) k = some v := by
  induction o with
  | nil => simp at hk
  | cons p rest ih =>
    rw [List.map_cons]
    by_cases hp : p.1 = k
    · rw [if_pos hp, objLookup, if_pos rfl]
    · rw [if_neg hp, objLookup, if_neg hp]
      refine ih ?_
      rcases hk with ⟨q, hq, hqk⟩
      rcases List.mem_cons.mp hq with h | h
      · exact absurd (h ▸ hqk) hp
      · exact ⟨q, h, hqk⟩

theorem objLookup_append_single_self (o : List (String × String)) (k v : String)
    (h : ∀ p ∈ o, p.1 ≠ k) :
    objLookup (o ++ [(k, v)]) k = some v := by
  induction o with
  | nil => simp [objLookup]
  | cons p rest ih =>
    rw [List.cons_append, objLookup, if_neg (h p (List.mem_cons_self p rest))]
    exact ih (fun q hq => h q (List.mem_cons_of_mem p hq))

theorem objLookup_append_single_ne (o : List (String × String)) (k v k' : String)
    (hk' : k' ≠ k) :
    objLookup (o ++ [(k, v)]) k' = objLookup o k' := by
  induction o with
  | nil =>
    show objLookup [(k, v)] k' = none
    rw [objLookup, if_neg (fun h => hk' h.symm)]
    rfl
  | cons p rest ih =>
    rw [List.cons_append, objLookup, objLookup, ih]

theorem objLookup_objSet (o : List (String × String)) (k v k' : String) :
    objLookup (objSet o k v) k' = if k' = k then some v else objLookup o k' := by
  unfold objSet
  by_cases hk' : k' = k
  · subst hk'
    rw [if_pos rfl]
    by_cases hany : o.any (fun p => p.1 == k')
    · rw [if_pos hany]
      refine objLookup_map_replace_self o k' v ?_
      rcases List.any_eq_true.mp hany with ⟨p, hp, hpk⟩
      exact ⟨p, hp, by simpa using hpk⟩
    · rw [if_neg hany]
      refine objLookup_append_single_self o k' v ?_
      intro p hp hpk
      exact hany (List.any_eq_true.mpr ⟨p, hp, by simpa using hpk⟩)
  · rw [if_neg hk']
    by_cases hany : o.any (fun p => p.1 == k)
    · rw [if_pos hany]
      exact objLookup_map_replace_ne o k v k' hk'
    · rw [if_neg hany]
      exact objLookup_append_single_ne o k v k' hk'

theorem objLookup_eq_none_of_not_mem (es : List (String × String)) (k : String)
    (h : k ∉ es.map Prod.fst) : objLookup es k = none := by
  induction es with
  | nil => rfl
  | cons p rest ih =>
    rw [List.map_cons, List.mem_cons, not_or] at h
    rw [objLookup, if_neg (fun he => h.1 he.symm)]
    exact ih h.2

theorem objLookup_objExtend (o es : List (String × String))
    (hnd : (es.map Prod.fst).Nodup) (k : String) :
    objLookup (objExtend o es) k = (objLookup es k).or (objLookup o k) := by
  induction es generalizing o with
  | nil => rfl
  | cons e rest ih =>
    rw [List.map_cons, List.nodup_cons] at hnd
    show objLookup (objExtend (objSet o e.1 e.2) rest) k = _
    rw [ih (objSet o e.1 e.2) hnd.2, objLookup_objSet, objLookup]
    by_cases hk : k = e.1
    · rw [if_pos hk, if_pos hk.symm,
        objLookup_eq_none_of_not_mem rest k (hk ▸ hnd.1)]
      rfl
    · rw [if_neg hk, if_neg (fun h => hk h.symm)]

theorem objSet_fresh (o : List (String × String)) (k v : String)
    (h : ∀ p ∈ o, p.1 ≠ k) : objSet o k v = o ++ [(k, v)] := by
  unfold objSet
  rw [if_neg]
  intro hany
  rcases List.any_eq_true.mp hany with ⟨p, hp, hpk⟩
  exact h p hp (by simpa using hpk)

theorem objExtend_fresh :
    ∀ (es o : List (String × String)), (es.map Prod.fst).Nodup →
      (∀ p ∈ o, ∀ q ∈ es, p.1 ≠ q.1) → objExtend o es = o ++ es := by
  intro es
  induction es with
  | nil => intro o _ _; simp [objExtend]
  | cons e rest ih =>
    intro o hnd hdisj
    rw [List.map_cons, List.nodup_cons] at hnd
    show objExtend (objSet o e.1 e.2) rest = o ++ e :: rest
    rw [objSet_fresh o e.1 e.2
      (fun p hp => hdisj p hp e (List.mem_cons_self e rest))]
    have : ∀ p ∈ o ++ [(e.1, e.2)], ∀ q ∈ rest, p.1 ≠ q.1 := by
      intro p hp q hq
      rcases List.mem_append.mp hp with h | h
      · exact hdisj p h q (List.mem_cons_of_mem e hq)
      · rw [List.mem_singleton] at h
        subst h
        intro hc
        exact hnd.1 (hc ▸ List.mem_map_of_mem Prod.fst hq)
    rw [ih (o ++ [(e.1, e.2)]) hnd.2 this, List.append_assoc]
    rfl

theorem objExtend_nil (es : List (String × String))
    (hnd : (es.map Prod.fst).Nodup) : objExtend [] es = es := by
  rw [objExtend_fresh es [] hnd (by simp)]
  rfl

theorem errorMessageOf_getD (parsed : Option JsVal) :
    errorMessageOf (parsed.getD (.obj [])) = specErrorMessage parsed := by
  cases parsed with
  | none => rfl
  | some body =>
    show errorMessageOf body = specErrorMessage (some body)
    unfold errorMessageOf specErrorMessage truthyOr specErrFallback
    cases hm : jsField body "message" with
    | none => cases he : jsField body "error" with
      | none => simp [hm, he]
      | some e =>
        simp only [hm, he]
        split_ifs <;> simp_all
    | some m => cases he : jsField body "error" with
      | none =>
        simp only [hm, he]
        split_ifs <;> simp_all
      | some e =>
        simp only [hm, he]
        split_ifs <;> simp_all

/-- C7 counterexample: for the body `{message: "", error: "Unauthorized"}`
on a 401, the claim says the message is taken from the `message` field,
giving `"Zaim API Error: 401 - "`; the code's `||` chain skips the falsy
empty string and uses the `error` field instead. -/
theorem claim_C7_counterexample :
    handleResponse 401
        (some (.obj [("message", .str ""), ("error", .str "Unauthorized")]))
      = .error "Zaim API Error: 401 - Unauthorized" ∧
    ("Zaim API Error: 401 - Unauthorized" : String) ≠ "Zaim API Error: 401 - " :=
  ⟨rfl, by decide⟩

/-- C7 amended: on a status outside 200..299, `handleResponse` raises the
API error `"Zaim API Error: <status> - <message>"` where the message is a
non-empty `message` field, else a non-empty `error` field, else
`"Unknown error"` (also when the body failed to parse); on a success
status an unparseable body yields the empty object and any parsed body is
returned as-is. -/
theorem claim_C7 (status : Nat) (parsed : Option JsVal) :
    (¬(200 ≤ status ∧ status ≤ 299) →
      handleResponse status parsed
        = .error ("Zaim API Error: " ++ toString status ++ " - "
            ++ specErrorMessage parsed)) ∧
    ((200 ≤ status ∧ status ≤ 299) →
      handleResponse status parsed = .ok (parsed.getD (.obj []))) := by
  constructor
  · intro h
    unfold handleResponse
    rw [if_pos h, errorMessageOf_getD]
  · intro h
    unfold handleResponse
    rw [if_neg (not_not_intro h)]

/-- Witness for C7: a 404 with unparseable body raises with the
`"Unknown error"` fallback; a 200 with unparseable body succeeds with the
empty object. -/
theorem claim_C7_witness :
    handleResponse 404 none = .error "Zaim API Error: 404 - Unknown error" ∧
    handleResponse 200 none = .ok (.obj []) :=
  ⟨by rw [(claim_C7 404 none).1 (by omega)]; rfl,
   by rw [(claim_C7 200 none).2 ⟨by omega, by omega⟩]; rfl⟩

/-- C8 counterexample: a consumer key consisting of one space is empty
after trimming, yet the client is constructed successfully —
`validateConfig` tests only JavaScript falsiness (exact emptiness) and
never trims. -/
theorem claim_C8_counterexample :
    validateConfig ⟨" ", "cs", "at", "ats"⟩ = .ok () ∧
    trimModel " " = "" :=
  ⟨rfl, by decide⟩

/-- C8 amended: construction fails synchronously, before any network
activity, iff one of the four credential strings is exactly empty (no
trimming); an empty consumer key raises the `"consumerKey is required"`
configuration error, and a config whose four fields are all non-empty
passes validation. -/
theorem claim_C8 :
    (∀ config : OAuthConfig,
      validateConfig config = .ok () ↔
        (config.consumerKey ≠ "" ∧ config.consumerSecret ≠ "" ∧
         config.accessToken ≠ "" ∧ config.accessTokenSecret ≠ "")) ∧
    validateConfig ⟨"", "cs", "at", "ats"⟩ = .error "consumerKey is required" := by
  constructor
  · intro config
    unfold validateConfig
    split_ifs <;> simp_all
  · rfl

theorem listStartsWith_append (pat rest : List Char) :
    listStartsWith pat (pat ++ rest) = true := by
  induction pat with
  | nil => rfl
  | cons p ps ih => simp [listStartsWith, ih]

theorem listHasSub_of_startsWith {pat l : List Char}
    (h : listStartsWith pat l = true) : listHasSub pat l = true := by
  cases l with
  | nil => exact h
  | cons c cs => simp [listHasSub, h]

theorem containsMarker_handleResponse {status : Nat} {parsed : Option JsVal}
    {e : String} (he : handleResponse status parsed = .error e) :
    containsMarker e = true := by
  unfold handleResponse at he
  split_ifs at he with h
  · rw [Except.error.injEq] at he
    subst he
    unfold containsMarker
    apply listHasSub_of_startsWith
    rw [show ("Zaim API Error: " ++ toString status ++ " - "
        ++ errorMessageOf ((parsed.getD (.obj []))) : String).data
        = ("Zaim API Error" : String).data ++ (": " ++ toString status ++ " - "
            ++ errorMessageOf ((parsed.getD (.obj [])))).data from by
      rw [string_append_data, string_append_data, string_append_data,
        string_append_data, string_append_data]
      simp [List.append_assoc]]
    exact listStartsWith_append _ _

/-- C9 counterexample: a transport rejection whose message itself contains
`'Zaim API Error'` is re-thrown unchanged instead of being wrapped as a
network error — the classification is a substring test on the message, so
the claim's universal statement fails. -/
theorem claim_C9_counterexample :
    requestOutcome (.error "Zaim API Error: spoofed")
      = .error "Zaim API Error: spoofed" ∧
    ("Zaim API Error: spoofed" : String)
      ≠ "Network error occurred: " ++ "Zaim API Error: spoofed" :=
  ⟨rfl, by decide⟩

/-- C9 amended: a transport throw whose message does not contain
`'Zaim API Error'` is re-raised as a network error wrapping the underlying
message, and an API error raised by `handleResponse` for a received non-2xx
response always contains that marker and propagates unchanged, never
re-wrapped — so the two kinds are distinguished exactly by the marker
substring. -/
theorem claim_C9 :
    (∀ m : String, containsMarker m = false →
      requestOutcome (.error m) = .error ("Network error occurred: " ++ m)) ∧
    (∀ (status : Nat) (parsed : Option JsVal) (e : String),
      handleResponse status parsed = .error e →
      requestOutcome (.ok (status, parsed)) = .error e ∧
        containsMarker e = true) := by
  constructor
  · intro m hm
    unfold requestOutcome
    show (if containsMarker m = true then Except.error m
      else .error ("Network error occurred: " ++ m)) = _
    rw [hm]
    rfl
  · intro status parsed e he
    refine ⟨?_, containsMarker_handleResponse he⟩
    unfold requestOutcome
    show (match handleResponse status parsed with
      | .ok v => Except.ok v
      | .error m => if containsMarker m = true then .error m
          else .error ("Network error occurred: " ++ m)) = .error e
    rw [he]
    show (if containsMarker e = true then Except.error e
      else .error ("Network error occurred: " ++ e)) = Except.error e
    rw [containsMarker_handleResponse he, if_pos rfl]

/-- Witness for C9: a plain transport failure is wrapped as a network
error; a received 401 with body `{error: "Unauthorized"}` raises the API
error unchanged. -/
theorem claim_C9_witness :
    requestOutcome (.error "fetch failed")
      = .error "Network error occurred: fetch failed" ∧
    requestOutcome (.ok (401, some (.obj [("error", .str "Unauthorized")])))
      = .error "Zaim API Error: 401 - Unauthorized" :=
  ⟨claim_C9.1 "fetch failed" (by decide),
   (claim_C9.2 401 (some (.obj [("error", .str "Unauthorized")]))
      "Zaim API Error: 401 - Unauthorized" rfl).1⟩

theorem string_mk_data (s : String) : String.mk s.data = s := string_data_inj rfl

theorem mem_joinSep {c : Char} {sep : List Char} :
    ∀ parts : List (List Char), c ∈ joinSep sep parts →
      c ∈ sep ∨ ∃ part ∈ parts, c ∈ part := by
  intro parts
  induction parts with
  | nil => intro h; simp [joinSep] at h
  | cons x xs ih =>
    intro h
    cases xs with
    | nil =>
      exact Or.inr ⟨x, List.mem_cons_self _ _, h⟩
    | cons y ys =>
      rw [show joinSep sep (x :: y :: ys) = x ++ sep ++ joinSep sep (y :: ys)
          from rfl, List.append_assoc, List.mem_append, List.mem_append] at h
      rcases h with h | h | h
      · exact Or.inr ⟨x, List.mem_cons_self _ _, h⟩
      · exact Or.inl h
      · rcases ih h with h | ⟨part, hp, hc⟩
        · exact Or.inl h
        · exact Or.inr ⟨part, List.mem_cons_of_mem _ hp, hc⟩

theorem serializeQuery_no_qmark (qs : List (String × String)) :
    '?' ∉ (serializeQuery qs).data := by
  intro hmem
  unfold serializeQuery at hmem
  rcases mem_joinSep _ hmem with h | ⟨part, hp, hc⟩
  · simp at h
  · rw [List.mem_map] at hp
    obtain ⟨p, _, hp⟩ := hp
    subst hp
    rw [List.mem_append, List.mem_cons] at hc
    rcases hc with hc | hc | hc
    · exact (formEncode_data_safe p.1 '?' hc).2.2 rfl
    · exact absurd hc (by decide)
    · exact (formEncode_data_safe p.2 '?' hc).2.2 rfl

theorem serializeQuery_ne_empty (qs : List (String × String)) (h : qs ≠ []) :
    serializeQuery qs ≠ "" := by
  intro he
  have hdata := congrArg String.data he
  unfold serializeQuery at hdata
  cases qs with
  | nil => exact h rfl
  | cons p ps =>
    rw [List.map_cons] at hdata
    cases hps : ps.map (fun p => (formEncode p.1).data ++ '='
        :: (formEncode p.2).data) with
    | nil =>
      rw [hps] at hdata
      cases hk : (formEncode p.1).data with
      | nil => rw [show joinSep ['&'] [(formEncode p.1).data ++ '='
          :: (formEncode p.2).data] = (formEncode p.1).data ++ '='
          :: (formEncode p.2).data from rfl, hk] at hdata; simp at hdata
      | cons a as => rw [show joinSep ['&'] [(formEncode p.1).data ++ '='
          :: (formEncode p.2).data] = (formEncode p.1).data ++ '='
          :: (formEncode p.2).data from rfl, hk] at hdata; simp at hdata
    | cons q qs' =>
      rw [hps] at hdata
      rw [show joinSep ['&'] (((formEncode p.1).data ++ '='
          :: (formEncode p.2).data) :: q :: qs') = ((formEncode p.1).data ++ '='
          :: (formEncode p.2).data) ++ ['&'] ++ joinSep ['&'] (q :: qs')
          from rfl] at hdata
      cases hk : (formEncode p.1).data with
      | nil => rw [hk] at hdata; simp at hdata
      | cons a as => rw [hk] at hdata; simp at hdata

theorem splitAtQMark_build (endpoint qsStr : String) (hend : '?' ∉ endpoint.data)
    (hq : '?' ∉ qsStr.data) :
    splitAtQMark (zaimBaseUrl ++ endpoint ++ "?" ++ qsStr)
      = (zaimBaseUrl ++ endpoint, some qsStr) := by
  unfold splitAtQMark
  have hdata : (zaimBaseUrl ++ endpoint ++ "?" ++ qsStr).data
      = (zaimBaseUrl ++ endpoint).data ++ '?' :: qsStr.data := by
    rw [string_append_data, string_append_data]
    rw [List.append_assoc]
    rfl
  have hbase : '?' ∉ (zaimBaseUrl ++ endpoint).data := by
    rw [string_append_data, List.mem_append]
    rintro (h | h)
    · exact absurd h (by decide)
    · exact hend h
  rw [hdata, splitOnChar_append '?' _ _ hbase, splitOnChar_not_mem '?' _ hq]
  show (String.mk (zaimBaseUrl ++ endpoint).data, some (String.mk qsStr.data))
    = (zaimBaseUrl ++ endpoint, some qsStr)
  rw [string_mk_data, string_mk_data]

theorem generateAuthHeader_eq (hmacSha1 : String → String → String)
    (method url : String) (requestParams : List (String × String))
    (config : OAuthConfig) (nonce ts : String) (b q : String)
    (hsplit : splitAtQMark url = (b, some q)) (hq : q ≠ "") :
    generateAuthHeader hmacSha1 method url requestParams config nonce ts
      = { signerUrl := b
          signerParams := objExtend (objExtend (objExtend []
              (oauthBaseParams config nonce ts)) requestParams)
            (objExtend [] (parseQueryPairs q.data))
          header := buildAuthorizationHeader
            (objExtend (oauthBaseParams config nonce ts)
              [("oauth_signature", generateOAuthSignature hmacSha1 method b
                  (objExtend (objExtend (objExtend []
                      (oauthBaseParams config nonce ts)) requestParams)
                    (objExtend [] (parseQueryPairs q.data)))
                  config.consumerSecret (some config.accessTokenSecret))]) } := by
  unfold generateAuthHeader
  rw [hsplit]
  simp only [if_neg hq]

theorem splitAtQMark_noquery (url : String) (h : '?' ∉ url.data) :
    splitAtQMark url = (url, none) := by
  unfold splitAtQMark
  rw [splitOnChar_not_mem '?' _ h]
  show (String.mk url.data, none) = (url, none)
  rw [string_mk_data]

theorem generateAuthHeader_eq_noquery (hmacSha1 : String → String → String)
    (method url : String) (requestParams : List (String × String))
    (config : OAuthConfig) (nonce ts : String) (b : String)
    (hsplit : splitAtQMark url = (b, none)) :
    generateAuthHeader hmacSha1 method url requestParams config nonce ts
      = { signerUrl := b
          signerParams := objExtend (objExtend []
              (oauthBaseParams config nonce ts)) requestParams
          header := buildAuthorizationHeader
            (objExtend (oauthBaseParams config nonce ts)
              [("oauth_signature", generateOAuthSignature hmacSha1 method b
                  (objExtend (objExtend []
                      (oauthBaseParams config nonce ts)) requestParams)
                  config.consumerSecret (some config.accessTokenSecret))]) } := by
  unfold generateAuthHeader
  rw [hsplit]
  rfl

/-- C6: for every client request carrying query parameters (and a `?`-free
endpoint path, as all the repository's endpoints are), the URL passed to the
signer is the path-only URL with the query string stripped, and the
parameter set passed to the signer is the union (in JavaScript spread
order) of the six fixed oauth_* parameters excluding the signature, the
body parameters, and exactly the query parameters that were serialized into
the constructed URL, round-tripped back out of it. -/
theorem claim_C6 (hmacSha1 : String → String → String)
    (method endpoint : String) (data qs : List (String × String))
    (config : OAuthConfig) (nonce ts : String)
    (hqs : qs ≠ []) (hqnd : (qs.map Prod.fst).Nodup)
    (hend : '?' ∉ endpoint.data) :
    (requestSignerView hmacSha1 method endpoint data qs config nonce ts).signerUrl
      = zaimBaseUrl ++ endpoint ∧
    (requestSignerView hmacSha1 method endpoint data qs config nonce ts).signerParams
      = objExtend (objExtend (objExtend [] (oauthBaseParams config nonce ts))
          (buildRequestParameters data)) qs := by
  have hne : ¬ qs.isEmpty = true := by
    cases qs with
    | nil => exact absurd rfl hqs
    | cons p ps => simp
  have hurl : buildUrl endpoint qs
      = zaimBaseUrl ++ endpoint ++ "?" ++ serializeQuery qs := by
    unfold buildUrl
    rw [if_neg hne]
  have hsplit := splitAtQMark_build endpoint (serializeQuery qs) hend
    (serializeQuery_no_qmark qs)
  unfold requestSignerView
  rw [hurl, generateAuthHeader_eq hmacSha1 method _ _ config nonce ts
    (zaimBaseUrl ++ endpoint) (serializeQuery qs) hsplit
    (serializeQuery_ne_empty qs hqs)]
  constructor
  · rfl
  · show objExtend (objExtend (objExtend [] (oauthBaseParams config nonce ts))
        (buildRequestParameters data))
        (objExtend [] (parseQueryPairs (serializeQuery qs).data)) = _
    rw [parseQueryPairs_serializeQuery qs, objExtend_nil qs hqnd]

/-- Witness for C6 at a concrete GET request with two query parameters. -/
theorem claim_C6_witness :
    (requestSignerView dummyHmac "GET" "/v2/home/money" []
        [("start_date", "2024-01-01"), ("end_date", "2024-01-31")]
        ⟨"ck", "cs", "tok", "tsec"⟩ "nonce1" "1234567890").signerUrl
      = "https://api.zaim.net/v2/home/money" ∧
    (requestSignerView dummyHmac "GET" "/v2/home/money" []
        [("start_date", "2024-01-01"), ("end_date", "2024-01-31")]
        ⟨"ck", "cs", "tok", "tsec"⟩ "nonce1" "1234567890").signerParams
      = objExtend (objExtend (objExtend []
          (oauthBaseParams ⟨"ck", "cs", "tok", "tsec"⟩ "nonce1" "1234567890"))
          (buildRequestParameters []))
          [("start_date", "2024-01-01"), ("end_date", "2024-01-31")] := by
  have h := claim_C6 dummyHmac "GET" "/v2/home/money" []
    [("start_date", "2024-01-01"), ("end_date", "2024-01-31")]
    ⟨"ck", "cs", "tok", "tsec"⟩ "nonce1" "1234567890"
    (by decide) (by decide) (by decide)
  exact ⟨by rw [h.1]; rfl, h.2⟩

/-- C10: when a body or query parameter shares a name with one of the six
fixed oauth_* parameters, the signed parameter set carries the body/query
value with query overriding body overriding the oauth value (the lookup in
the merged set is the spread-order chain), while the Authorization header
is built from the original oauth_* values plus the computed signature only
— so header and signed set can disagree on such a name; for disjoint names
the merged set holds exactly the union of the three maps. -/
theorem claim_C10 (hmacSha1 : String → String → String)
    (method endpoint : String) (data qs : List (String × String))
    (config : OAuthConfig) (nonce ts : String)
    (hqnd : (qs.map Prod.fst).Nodup)
    (hdnd : (data.map Prod.fst).Nodup)
    (hend : '?' ∉ endpoint.data) :
    (∀ k, objLookup
        (requestSignerView hmacSha1 method endpoint data qs config nonce ts).signerParams k
      = ((objLookup qs k).or ((objLookup data k).or
          (objLookup (oauthBaseParams config nonce ts) k)))) ∧
    (requestSignerView hmacSha1 method endpoint data qs config nonce ts).header
      = buildAuthorizationHeader (oauthBaseParams config nonce ts
          ++ [("oauth_signature", generateOAuthSignature hmacSha1 method
              (requestSignerView hmacSha1 method endpoint data qs config nonce ts).signerUrl
              (requestSignerView hmacSha1 method endpoint data qs config nonce ts).signerParams
              config.consumerSecret (some config.accessTokenSecret))]) := by
  have hone : (oauthBaseParams config nonce ts).map Prod.fst
      = ["oauth_consumer_key", "oauth_nonce", "oauth_signature_method",
         "oauth_timestamp", "oauth_token", "oauth_version"] := rfl
  have hond : ((oauthBaseParams config nonce ts).map Prod.fst).Nodup := by
    rw [hone]
    decide
  have hbrp : buildRequestParameters data = data := objExtend_nil data hdnd
  have hview : requestSignerView hmacSha1 method endpoint data qs config nonce ts
      = { signerUrl := zaimBaseUrl ++ endpoint
          signerParams := objExtend (objExtend (objExtend []
              (oauthBaseParams config nonce ts)) data) qs
          header := buildAuthorizationHeader
            (objExtend (oauthBaseParams config nonce ts)
              [("oauth_signature", generateOAuthSignature hmacSha1 method
                  (zaimBaseUrl ++ endpoint)
                  (objExtend (objExtend (objExtend []
                      (oauthBaseParams config nonce ts)) data) qs)
                  config.consumerSecret (some config.accessTokenSecret))]) } := by
    show generateAuthHeader hmacSha1 method (buildUrl endpoint qs)
      (buildRequestParameters data) config nonce ts = _
    by_cases hqs : qs = []
    · subst hqs
      have hbase : '?' ∉ (zaimBaseUrl ++ endpoint).data := by
        rw [string_append_data, List.mem_append]
        rintro (h | h)
        · exact absurd h (by decide)
        · exact hend h
      have hurl : buildUrl endpoint ([] : List (String × String))
          = zaimBaseUrl ++ endpoint := rfl
      rw [hurl, generateAuthHeader_eq_noquery hmacSha1 method _ _ config nonce ts
        (zaimBaseUrl ++ endpoint) (splitAtQMark_noquery _ hbase), hbrp]
      rfl
    · have hne : ¬ qs.isEmpty = true := by
        cases qs with
        | nil => exact absurd rfl hqs
        | cons p ps => simp
      have hurl : buildUrl endpoint qs
          = zaimBaseUrl ++ endpoint ++ "?" ++ serializeQuery qs := by
        unfold buildUrl
        rw [if_neg hne]
      have hsplit := splitAtQMark_build endpoint (serializeQuery qs) hend
        (serializeQuery_no_qmark qs)
      rw [hurl, generateAuthHeader_eq hmacSha1 method _ _ config nonce ts
        (zaimBaseUrl ++ endpoint) (serializeQuery qs) hsplit
        (serializeQuery_ne_empty qs hqs), hbrp,
        parseQueryPairs_serializeQuery qs, objExtend_nil qs hqnd]
  constructor
  · intro k
    rw [hview]
    show objLookup (objExtend (objExtend (objExtend []
        (oauthBaseParams config nonce ts)) data) qs) k = _
    rw [objLookup_objExtend _ qs hqnd k,
      objLookup_objExtend _ data hdnd k, objExtend_nil _ hond]
  · rw [hview]
    show buildAuthorizationHeader (objExtend (oauthBaseParams config nonce ts)
        [("oauth_signature", generateOAuthSignature hmacSha1 method
            (zaimBaseUrl ++ endpoint)
            (objExtend (objExtend (objExtend []
                (oauthBaseParams config nonce ts)) data) qs)
            config.consumerSecret (some config.accessTokenSecret))]) = _
    rw [objExtend_fresh _ _ (by simp) (by
      intro p hp q hq2
      rw [List.mem_singleton] at hq2
      subst hq2
      unfold oauthBaseParams at hp
      simp only [List.mem_cons, List.not_mem_nil, or_false] at hp
      rcases hp with rfl | rfl | rfl | rfl | rfl | rfl <;> simp)]

/-- Witness for C10 at a concrete POST request with no query parameters
whose body reuses the name `oauth_version`: the signed set carries the
body's `"9.9"` while the header is still built from the original oauth
parameters (whose `oauth_version` is `"1.0"`) plus the signature. -/
theorem claim_C10_witness :
    objLookup (requestSignerView dummyHmac "POST" "/v2/home/money/payment"
        [("oauth_version", "9.9")] []
        ⟨"ck", "cs", "tok", "tsec"⟩ "n1" "111").signerParams "oauth_version"
      = some "9.9" ∧
    (requestSignerView dummyHmac "POST" "/v2/home/money/payment"
        [("oauth_version", "9.9")] []
        ⟨"ck", "cs", "tok", "tsec"⟩ "n1" "111").header
      = buildAuthorizationHeader
          (oauthBaseParams ⟨"ck", "cs", "tok", "tsec"⟩ "n1" "111"
            ++ [("oauth_signature", generateOAuthSignature dummyHmac "POST"
                (requestSignerView dummyHmac "POST" "/v2/home/money/payment"
                  [("oauth_version", "9.9")] []
                  ⟨"ck", "cs", "tok", "tsec"⟩ "n1" "111").signerUrl
                (requestSignerView dummyHmac "POST" "/v2/home/money/payment"
                  [("oauth_version", "9.9")] []
                  ⟨"ck", "cs", "tok", "tsec"⟩ "n1" "111").signerParams
                "cs" (some "tsec"))]) := by
  have h := claim_C10 dummyHmac "POST" "/v2/home/money/payment"
    [("oauth_version", "9.9")] []
    ⟨"ck", "cs", "tok", "tsec"⟩ "n1" "111"
    (by decide) (by decide) (by decide)
  exact ⟨by rw [h.1 "oauth_version"]; rfl, h.2⟩

end ZaimSpec
